import Mathlib

/-!
# openvpn/crypto/digest.hpp : `Digest` and `HMACContext`

A shallow embedding of `src/openvpn/crypto/digest.hpp`.

* Bytes are `Fin 256`; buffers are `List Byte`.
* A C++ member function becomes a function from the object (and the buffers it
  may mutate) to an `Outcome`: a normal return, a thrown exception (both carry
  the state left behind) or undefined behaviour (an access outside a buffer,
  a NULL digest inside the engine).
* `size_t` is 64 bits wide, `int` and `unsigned int` are 32 bits wide; the
  conversions of the source are written out (`size_t_wrap`, `int_cast`,
  `uint_cast`).
* The pointer `out` of `hmac2_gen` / `hmac2_cmp` is the signed byte offset
  `off = out - in` relative to the start of `in`.
* The OpenSSL primitives (`EVP_get_digestbyname`, `HMAC_*`) are not part of the
  file; they are the parameter `Crypto`, and the engine `HMAC_CTX` is the usual
  streaming abstraction (digest, key, bytes fed since the last reset).
* The length handed to `HMAC_Update` is the `int` the source computes; a
  negative length, or one that runs past the end of the buffer, is a read
  outside the buffer.
* A Ready context is a `Reachable` context whose `defined()` is true.
-/

namespace openvpn

abbrev Byte := Fin 256

/-- The exceptions declared with `OPENVPN_SIMPLE_EXCEPTION` in the file. -/
inductive Exn
  | digest_not_found
  | digest_undefined
  | digest_init_insufficient_key_material
  | hmac_size_inconsistency
  | hmac_uninitialized
  | digest_output_buffer
  deriving DecidableEq, Repr

/-- How a call ends: it returns `a` leaving state `s`, it throws `e` leaving
state `s`, or its behaviour is undefined. -/
inductive Outcome (σ α : Type)
  | returns (s : σ) (a : α)
  | throws (s : σ) (e : Exn)
  | undefined
  deriving DecidableEq, Repr

/-- The state a call leaves behind, when it has defined behaviour. -/
def Outcome.state? {σ α : Type} : Outcome σ α → Option σ
  | .returns s _ => some s
  | .throws s _ => some s
  | .undefined => none

/-- The value a call returns, when it returns. -/
def Outcome.value? {σ α : Type} : Outcome σ α → Option α
  | .returns _ a => some a
  | _ => none

/-! ## Machine integers -/

/-- A value stored in a `size_t` (64 bit, unsigned). -/
def size_t_wrap (i : Int) : Nat := (i % 2 ^ 64).toNat

/-- The conversion `int(x)` of a `size_t` (32 bit two's complement). -/
def int_cast (n : Nat) : Int :=
  if n % 2 ^ 32 < 2 ^ 31 then ((n % 2 ^ 32 : Nat) : Int)
  else ((n % 2 ^ 32 : Nat) : Int) - 2 ^ 32

/-- A value stored in an `unsigned int` (32 bit). -/
def uint_cast (n : Nat) : Nat := n % 2 ^ 32

/-! ## Memory -/

/-- Reading `len` bytes at offset `start` of `buf`. Reading no byte touches no
memory; any other read must lie inside the buffer (`none` otherwise, also for a
negative `len`). -/
def mem_read (buf : List Byte) (start : Int) (len : Int) : Option (List Byte) :=
  if len = 0 then some []
  else if 0 ≤ start ∧ 0 < len ∧ start + len ≤ buf.length then
    some ((buf.drop start.toNat).take len.toNat)
  else none

/-- Writing `bytes` at offset `start` of `buf`; the target must lie inside the
buffer unless there is nothing to write. -/
def mem_write (buf : List Byte) (start : Int) (bytes : List Byte) : Option (List Byte) :=
  if bytes.length = 0 then some buf
  else if 0 ≤ start ∧ start + bytes.length ≤ buf.length then
    some (buf.take start.toNat ++ bytes ++ buf.drop (start.toNat + bytes.length))
  else none

/-! ## The digest library (external) -/

/-- OpenSSL's `EVP_MAX_MD_SIZE`. -/
def EVP_MAX_MD_SIZE : Nat := 64

/-- An `EVP_MD`: what `EVP_MD_name` and `EVP_MD_size` report about it. No
digest is longer than `EVP_MAX_MD_SIZE`. -/
structure EVP_MD where
  name : String
  size : Nat
  size_le : size ≤ EVP_MAX_MD_SIZE
  deriving DecidableEq

/-- The part of the crypto library the file calls: the lookup by name and the
HMAC function `HMAC md key msg`, whose tag has `EVP_MD_size md` bytes. -/
structure Crypto where
  EVP_get_digestbyname : String → Option EVP_MD
  HMAC : EVP_MD → List Byte → List Byte → List Byte
  HMAC_length : ∀ md key msg, (HMAC md key msg).length = md.size

/-- The engine `HMAC_CTX`: digest, key and the bytes fed since the last reset. -/
structure HMAC_CTX where
  md : Option EVP_MD
  key : List Byte
  data : List Byte
  deriving DecidableEq

/-- The call `HMAC_CTX_init`: a blank engine. -/
def HMAC_CTX_init : HMAC_CTX := ⟨none, [], []⟩

/-- The call `HMAC_CTX_cleanup`: wipes the engine. -/
def HMAC_CTX_cleanup (_c : HMAC_CTX) : HMAC_CTX := ⟨none, [], []⟩

/-- The call `HMAC_Init_ex (c, key, len, md, NULL)`: a non-NULL `md` replaces the
digest, a non-NULL `key` replaces the key by its first `len` bytes, and the
engine restarts from the keyed state. -/
def HMAC_Init_ex (c : HMAC_CTX) (key : Option (List Byte)) (len : Int)
    (md : Option EVP_MD) : HMAC_CTX :=
  { md := match md with
          | some m => some m
          | none => c.md
    key := match key with
           | some k => k.take len.toNat
           | none => c.key
    data := [] }

/-- The call `HMAC_Update`, once the bytes have been read. -/
def HMAC_Update (c : HMAC_CTX) (bytes : List Byte) : HMAC_CTX :=
  { c with data := c.data ++ bytes }

/-- The call `HMAC_size`: the digest size of the engine (undefined without a digest). -/
def HMAC_size (c : HMAC_CTX) : Option Nat := c.md.map (fun m => m.size)

/-- The call `HMAC_Final`: the tag of the bytes fed (undefined without a digest). -/
def HMAC_Final (L : Crypto) (c : HMAC_CTX) : Option (List Byte) :=
  c.md.map (fun m => L.HMAC m c.key c.data)

/-! ## class Digest -/

structure Digest where
  digest_ : Option EVP_MD
  deriving DecidableEq

/-- The constructor `Digest()`. -/
def Digest.mk_default : Digest := ⟨none⟩

/-- The constructor `Digest(const char *name)`. -/
def Digest.mk_name (L : Crypto) (name : String) : Except Exn Digest :=
  match L.EVP_get_digestbyname name with
  | none => .error .digest_not_found
  | some m => .ok ⟨some m⟩

def Digest.name (d : Digest) : Except Exn String :=
  match d.digest_ with
  | none => .error .digest_undefined
  | some m => .ok m.name

def Digest.size (d : Digest) : Except Exn Nat :=
  match d.digest_ with
  | none => .error .digest_undefined
  | some m => .ok m.size

def Digest.defined (d : Digest) : Bool := d.digest_.isSome

def Digest.get (d : Digest) : Option EVP_MD := d.digest_

/-- Modelled from the spec: `StaticKey` (openvpn/crypto/static_key.hpp) is a
raw byte buffer with `size()` and `data()`. -/
abbrev StaticKey := List Byte

/-! ## class HMACContext -/

structure HMAC_CTX_wrapper where
  ctx : HMAC_CTX
  initialized : Bool
  deriving DecidableEq

namespace HMAC_CTX_wrapper

/-- The constructor: `initialized(false)`. -/
def mk_default : HMAC_CTX_wrapper := ⟨HMAC_CTX_init, false⟩

def erase (w : HMAC_CTX_wrapper) : HMAC_CTX_wrapper :=
  if w.initialized then ⟨HMAC_CTX_cleanup w.ctx, false⟩ else w

def init (w : HMAC_CTX_wrapper) : HMAC_CTX_wrapper :=
  let _w1 := w.erase
  ⟨HMAC_CTX_init, true⟩

/-- The call operator `operator()()`. -/
def call (w : HMAC_CTX_wrapper) : Except Exn HMAC_CTX :=
  if !w.initialized then .error .hmac_uninitialized else .ok w.ctx

def is_initialized (w : HMAC_CTX_wrapper) : Bool := w.initialized

end HMAC_CTX_wrapper

structure HMACContext where
  digest_ : Digest
  key_ : StaticKey
  ctx : HMAC_CTX_wrapper
  deriving DecidableEq

namespace HMACContext

/-- The constructor `HMACContext()`. -/
def mk_default : HMACContext := ⟨Digest.mk_default, [], HMAC_CTX_wrapper.mk_default⟩

def defined (self : HMACContext) : Bool := self.ctx.is_initialized

/-- The member `init(digest, key)`. -/
def init (self : HMACContext) (digest : Digest) (key : StaticKey) :
    Outcome HMACContext Unit :=
  let s1 : HMACContext := { digest_ := digest, key_ := key, ctx := self.ctx.erase }
  if digest.defined then
    match s1.digest_.size with
    | .error e => .throws s1 e
    | .ok dsize =>
      if s1.key_.length < dsize then
        .throws s1 .digest_init_insufficient_key_material
      else
        let w := s1.ctx.init
        match w.call with
        | .error e => .throws { s1 with ctx := w } e
        | .ok c =>
          let c1 := HMAC_Init_ex c (some s1.key_) (int_cast dsize) s1.digest_.get
          .returns { s1 with ctx := { w with ctx := c1 } } ()
  else
    .returns s1 ()

/-- The constructor `HMACContext(digest, key)`: an object exists only if `init` returns. -/
def mk_init (digest : Digest) (key : StaticKey) : Outcome HMACContext Unit :=
  mk_default.init digest key

/-- The copy constructor `HMACContext(const HMACContext& ref)`: an object
exists only if `init` returns. -/
def mk_copy (ref : HMACContext) : Outcome HMACContext Unit :=
  mk_default.init ref.digest_ ref.key_

/-- The assignment `operator=`; `same` says that `this == &ref`. -/
def assign (self : HMACContext) (ref : HMACContext) (same : Bool) :
    Outcome HMACContext Unit :=
  if !same then self.init ref.digest_ ref.key_ else .returns self ()

/-- The member `output_size()`. -/
def output_size (self : HMACContext) : Outcome HMACContext Nat :=
  match self.ctx.call with
  | .error e => .throws self e
  | .ok c =>
    match HMAC_size c with
    | none => .undefined
    | some n => .returns self n

/-- The member `hmac(out, out_size, in, in_size)` with `out_size = out.length` and
`in_size = in.length`; the state is the context and the buffer `out`. -/
def hmac (L : Crypto) (self : HMACContext) (out : List Byte) (inb : List Byte) :
    Outcome (HMACContext × List Byte) Nat :=
  match self.ctx.call with
  | .error e => .throws (self, out) e
  | .ok c =>
    match HMAC_size c with
    | none => .undefined
    | some sz =>
      let hmac_size := uint_cast sz
      if out.length < hmac_size then
        .throws (self, out) .digest_output_buffer
      else
        let c1 := HMAC_Init_ex c none 0 none
        match mem_read inb 0 (int_cast inb.length) with
        | none => .undefined
        | some bytes =>
          let c2 := HMAC_Update c1 bytes
          match HMAC_Final L c2 with
          | none => .undefined
          | some tag =>
            match mem_write out 0 tag with
            | none => .undefined
            | some out1 =>
              .returns ({ self with ctx := { self.ctx with ctx := c2 } }, out1)
                (uint_cast tag.length)

/-- The local `pre_size = out - in` of `hmac2_pre`, a `size_t`. -/
def pre_size (off : Int) : Nat := size_t_wrap off

/-- The local `post_size = in_size - pre_size - out_size` of `hmac2_pre`, a
`size_t`. -/
def post_size (off : Int) (out_size in_size : Nat) : Nat :=
  size_t_wrap ((in_size : Int) - pre_size off - out_size)

/-- The range check of `hmac2_pre`: `pre_size > in_size || post_size > in_size`. -/
def range_rejects (off : Int) (out_size in_size : Nat) : Bool :=
  decide (pre_size off > in_size) || decide (post_size off out_size in_size > in_size)

/-- The member `hmac2_pre(out, out_size, in, in_size)` with `off = out - in` and
`in_size = in.length`. The engine it returns is the one of the state. -/
def hmac2_pre (self : HMACContext) (off : Int) (out_size : Nat) (inb : List Byte) :
    Outcome HMACContext Unit :=
  let in_size := inb.length
  if range_rejects off out_size in_size then
    .throws self .digest_output_buffer
  else
    match self.ctx.call with
    | .error e => .throws self e
    | .ok c =>
      match HMAC_size c with
      | none => .undefined
      | some sz =>
        let hmac_size := uint_cast sz
        if out_size ≠ hmac_size then
          .throws self .digest_output_buffer
        else
          let c1 := HMAC_Init_ex c none 0 none
          match mem_read inb 0 (int_cast (pre_size off)) with
          | none => .undefined
          | some pre =>
            let c2 := HMAC_Update c1 pre
            match mem_read inb (off + out_size)
                (int_cast (post_size off out_size in_size)) with
            | none => .undefined
            | some post =>
              let c3 := HMAC_Update c2 post
              .returns { self with ctx := { self.ctx with ctx := c3 } } ()

/-- The member `hmac2_gen(out, out_size, in, in_size)`; the state is the context and the
buffer `in`. -/
def hmac2_gen (L : Crypto) (self : HMACContext) (off : Int) (out_size : Nat)
    (inb : List Byte) : Outcome (HMACContext × List Byte) Unit :=
  match self.hmac2_pre off out_size inb with
  | .undefined => .undefined
  | .throws s e => .throws (s, inb) e
  | .returns s _ =>
    match HMAC_Final L s.ctx.ctx with
    | none => .undefined
    | some tag =>
      match mem_write inb off tag with
      | none => .undefined
      | some in1 => .returns (s, in1) ()

/-- The member `hmac2_cmp(out, out_size, in, in_size)`; `in` is read only, the state is
the context. `local_hmac` holds the tag in its first bytes. -/
def hmac2_cmp (L : Crypto) (self : HMACContext) (off : Int) (out_size : Nat)
    (inb : List Byte) : Outcome HMACContext Bool :=
  match self.hmac2_pre off out_size inb with
  | .undefined => .undefined
  | .throws s e => .throws s e
  | .returns s _ =>
    match HMAC_Final L s.ctx.ctx with
    | none => .undefined
    | some local_hmac =>
      match mem_read inb off out_size with
      | none => .undefined
      | some slot => .returns s (decide (slot = local_hmac.take out_size))

end HMACContext

/-! ## Reachable contexts -/

/-- The contexts a program can hold: built by a constructor and changed only by
the public members. A constructor that throws builds no object, and nothing
follows a call with undefined behaviour. -/
inductive Reachable (L : Crypto) : HMACContext → Prop
  | default : Reachable L HMACContext.mk_default
  | ctor (d : Digest) (k : StaticKey) (c : HMACContext) :
      HMACContext.mk_init d k = .returns c () → Reachable L c
  | copy (r c : HMACContext) :
      Reachable L r → HMACContext.mk_copy r = .returns c () → Reachable L c
  | init (c : HMACContext) (d : Digest) (k : StaticKey) (c1 : HMACContext) :
      Reachable L c → (c.init d k).state? = some c1 → Reachable L c1
  | assign (c r : HMACContext) (same : Bool) (c1 : HMACContext) :
      Reachable L c → Reachable L r → (same = true → r = c) →
      (c.assign r same).state? = some c1 → Reachable L c1
  | output_size (c c1 : HMACContext) :
      Reachable L c → c.output_size.state? = some c1 → Reachable L c1
  | hmac (c : HMACContext) (out inb : List Byte) (c1 : HMACContext) (out1 : List Byte) :
      Reachable L c → (c.hmac L out inb).state? = some (c1, out1) → Reachable L c1
  | hmac2_gen (c : HMACContext) (off : Int) (out_size : Nat) (inb : List Byte)
      (c1 : HMACContext) (in1 : List Byte) :
      Reachable L c → (c.hmac2_gen L off out_size inb).state? = some (c1, in1) →
      Reachable L c1
  | hmac2_cmp (c : HMACContext) (off : Int) (out_size : Nat) (inb : List Byte)
      (c1 : HMACContext) :
      Reachable L c → (c.hmac2_cmp L off out_size inb).state? = some c1 →
      Reachable L c1

/-- The context is keyed with digest `md`: the engine is initialized and holds
`md` and the first `md.size` bytes of the stored key. -/
def Keyed (c : HMACContext) (md : EVP_MD) : Prop :=
  c.digest_.digest_ = some md ∧ c.ctx.initialized = true ∧ c.ctx.ctx.md = some md ∧
    c.ctx.ctx.key = c.key_.take md.size ∧ md.size ≤ c.key_.length

/-- The tag `HMAC (key, msg)` of a context: the library HMAC under the stored
digest and the first `size` bytes of the stored key. -/
def tag_of (L : Crypto) (c : HMACContext) (msg : List Byte) : List Byte :=
  match c.digest_.digest_ with
  | some md => L.HMAC md (c.key_.take md.size) msg
  | none => []

/-! ## A small library instance, for concrete evaluations -/

/-- A digest with a 32 byte output. -/
def sum32 : EVP_MD := ⟨"SUM32", 32, by decide⟩

/-- The checksum behind the stand-in HMAC. -/
def checksum (key msg : List Byte) : Nat :=
  ((key.map Fin.val).sum + (msg.map Fin.val).sum + 7 * msg.length + 1) % 251

/-- A stand-in library: one digest, and a checksum in place of the HMAC. -/
def sumCrypto : Crypto where
  EVP_get_digestbyname := fun n => if n = "SUM32" then some sum32 else none
  HMAC := fun md key msg => List.replicate md.size (Fin.ofNat (checksum key msg) : Byte)
  HMAC_length := by intro md key msg; simp

/-- A 32 byte key. -/
def key32 : StaticKey := List.replicate 32 3

/-- The context `HMACContext(Digest("SUM32"), key32)`. -/
def ctx32 : HMACContext :=
  { digest_ := ⟨some sum32⟩, key_ := key32,
    ctx := { ctx := { md := some sum32, key := key32, data := [] }, initialized := true } }

/-- Two contexts agree on everything but the bytes fed to the engine. -/
def SameKeying (c c1 : HMACContext) : Prop :=
  c1.digest_ = c.digest_ ∧ c1.key_ = c.key_ ∧ c1.ctx.initialized = c.ctx.initialized ∧
    c1.ctx.ctx.md = c.ctx.ctx.md ∧ c1.ctx.ctx.key = c.ctx.ctx.key

/-- The state invariant: an initialized engine is keyed from the stored
digest and key. -/
def Inv (c : HMACContext) : Prop :=
  c.ctx.initialized = true → ∃ md, Keyed c md

/-- The context `c` with `data` as the bytes fed to its engine. -/
def with_data (c : HMACContext) (data : List Byte) : HMACContext :=
  { c with ctx := { c.ctx with ctx := { c.ctx.ctx with data := data } } }

/-- A 48 byte buffer: 10 bytes, a 32 byte slot of zeros, 6 bytes. -/
def buf48 : List Byte :=
  [1, 2, 3, 4, 5, 6, 7, 8, 9, 10] ++ List.replicate 32 0 ++ [11, 12, 13, 14, 15, 16]

/-- A buffer of 2^31 + 32 bytes: 2^31 bytes, then a 32 byte slot. -/
def buf_2g : List Byte := List.replicate 2147483648 0 ++ List.replicate 32 0

/-- The first 2^32 bytes of a buffer of 2^32 + 38 bytes. -/
def pre_4g : List Byte := List.replicate 4294967296 0

/-- The last 6 bytes of that buffer. -/
def post6 : List Byte := [11, 12, 13, 14, 15, 16]

/-- The tag of `post6` alone under `ctx32`. -/
def tag6 : List Byte := tag_of sumCrypto ctx32 post6

/-- A 32 byte slot of zeros. -/
def slot0 : List Byte := List.replicate 32 0

/-- The first 10 bytes of `buf48`. -/
def pre10 : List Byte := [1, 2, 3, 4, 5, 6, 7, 8, 9, 10]

/-- What the caller of `hmac` or `hmac2_gen` sees: the buffer and how the call
ended, without the context. -/
def Outcome.observe {α : Type} : Outcome (HMACContext × List Byte) α → Outcome (List Byte) α
  | .returns s a => .returns s.2 a
  | .throws s e => .throws s.2 e
  | .undefined => .undefined

/-- A call of one of the tag operations, with its arguments. -/
inductive TagOp
  | hmac (out inb : List Byte)
  | hmac2_gen (off : Int) (out_size : Nat) (inb : List Byte)
  | hmac2_cmp (off : Int) (out_size : Nat) (inb : List Byte)

/-- The context after one tag operation, whether it returned or threw. -/
def run_op (L : Crypto) (c : HMACContext) : TagOp → Option HMACContext
  | .hmac out inb => (c.hmac L out inb).state?.map Prod.fst
  | .hmac2_gen off out_size inb => (c.hmac2_gen L off out_size inb).state?.map Prod.fst
  | .hmac2_cmp off out_size inb => (c.hmac2_cmp L off out_size inb).state?

/-- The context after a sequence of tag operations. -/
def run_ops (L : Crypto) (c : HMACContext) : List TagOp → Option HMACContext
  | [] => some c
  | op :: ops =>
    match run_op L c op with
    | none => none
    | some c1 => run_ops L c1 ops

/-- A history: a tag, an embedded tag, a check that fails on the slot size. -/
def history3 : List TagOp :=
  [.hmac slot0 post6, .hmac2_gen 10 32 buf48, .hmac2_cmp 10 16 buf48]

/-- The context `ctx32` after `history3`. -/
def ctx32_after : HMACContext := with_data ctx32 (pre10 ++ post6)

/-- A 16 byte key, too short for `sum32`. -/
def key16 : StaticKey := List.replicate 16 5

/-- What the caller of `hmac2_cmp` sees: how the call ended, without the
context. -/
def Outcome.result {σ α : Type} : Outcome σ α → Outcome Unit α
  | .returns _ a => .returns () a
  | .throws _ e => .throws () e
  | .undefined => .undefined

/-- Two contexts are keyed with the same digest and with keys that agree on
the bytes the engine uses. -/
def KeyEq (c1 c2 : HMACContext) : Prop :=
  ∃ md, Keyed c1 md ∧ Keyed c2 md ∧ c1.key_.take md.size = c2.key_.take md.size

/-- A 34 byte key that agrees with `key32` on its first 32 bytes. -/
def key34 : StaticKey := key32 ++ [9, 9]

/-- The bytes `pre10` with byte 0 changed from 1 to 252. -/
def pre10_flipped : List Byte := [252, 2, 3, 4, 5, 6, 7, 8, 9, 10]

/-- The bytes `pre_4g` with byte 0 changed from 0 to 1. -/
def pre_4g_flipped : List Byte := 1 :: List.replicate 4294967295 0

/-- The largest `size_t`. -/
def size_max : Nat := 18446744073709551615

/-! ## Basic facts -/

theorem int_cast_of_lt {n : Nat} (h : n < 2 ^ 31) : int_cast n = (n : Int) := by
  unfold int_cast
  split <;> omega

theorem uint_cast_size (md : EVP_MD) : uint_cast md.size = md.size := by
  have h := md.size_le
  unfold EVP_MAX_MD_SIZE at h
  unfold uint_cast
  omega

theorem mem_read_zero (buf : List Byte) (start : Int) : mem_read buf start 0 = some [] := by
  simp [mem_read]

theorem mem_read_inside (pre mid post : List Byte) :
    mem_read (pre ++ mid ++ post) pre.length mid.length = some mid := by
  unfold mem_read
  by_cases h : mid = []
  · subst h; simp
  · have hl : 0 < mid.length := List.length_pos.mpr h
    have h1 : ¬ ((mid.length : Int) = 0) := by omega
    have h2 : (0 : Int) ≤ (pre.length : Int) ∧ (0 : Int) < (mid.length : Int) ∧
        (pre.length : Int) + (mid.length : Int) ≤ ((pre ++ mid ++ post).length : Int) := by
      simp only [List.length_append]; omega
    rw [if_neg h1, if_pos h2]
    simp

theorem mem_write_inside (pre mid post bytes : List Byte) (h : bytes.length = mid.length) :
    mem_write (pre ++ mid ++ post) pre.length bytes = some (pre ++ bytes ++ post) := by
  unfold mem_write
  by_cases h0 : bytes.length = 0
  · have hb : bytes = [] := List.length_eq_zero.mp h0
    have hm : mid = [] := List.length_eq_zero.mp (by omega)
    subst hb; subst hm; simp
  · have h2 : (0 : Int) ≤ (pre.length : Int) ∧
        (pre.length : Int) + (bytes.length : Int) ≤ ((pre ++ mid ++ post).length : Int) := by
      simp only [List.length_append]; omega
    rw [if_neg h0, if_pos h2]
    simp [h, List.take_append_eq_append_take, List.drop_append_eq_append_drop]

/-! ## Frame lemmas: what each member leaves alone -/

theorem SameKeying.refl (c : HMACContext) : SameKeying c c :=
  ⟨rfl, rfl, rfl, rfl, rfl⟩

theorem SameKeying.keyed {c c1 : HMACContext} {md : EVP_MD} (h : SameKeying c c1)
    (hk : Keyed c md) : Keyed c1 md := by
  obtain ⟨h1, h2, h3, h4, h5⟩ := h
  obtain ⟨k1, k2, k3, k4, k5⟩ := hk
  refine ⟨?_, ?_, ?_, ?_, ?_⟩
  · rw [h1]; exact k1
  · rw [h3]; exact k2
  · rw [h4]; exact k3
  · rw [h5, h2]; exact k4
  · rw [h2]; exact k5

theorem SameKeying.inv {c c1 : HMACContext} (h : SameKeying c c1) (hi : Inv c) : Inv c1 := by
  intro h1
  have h0 : c.ctx.initialized = true := by rw [← h.2.2.1]; exact h1
  obtain ⟨md, hk⟩ := hi h0
  exact ⟨md, h.keyed hk⟩

theorem output_size_frame {c c1 : HMACContext} (h : c.output_size.state? = some c1) :
    c1 = c := by
  unfold HMACContext.output_size at h
  split at h
  · simp [Outcome.state?] at h; exact h.symm
  · split at h
    · simp [Outcome.state?] at h
    · simp [Outcome.state?] at h; exact h.symm

theorem call_ok {w : HMAC_CTX_wrapper} {x : HMAC_CTX} (h : w.call = .ok x) :
    x = w.ctx ∧ w.initialized = true := by
  unfold HMAC_CTX_wrapper.call at h
  split at h
  · cases h
  · rename_i hi
    simp at hi
    cases h
    exact ⟨rfl, hi⟩

theorem call_error {w : HMAC_CTX_wrapper} {e : Exn} (h : w.call = .error e) :
    e = .hmac_uninitialized ∧ w.initialized = false := by
  unfold HMAC_CTX_wrapper.call at h
  split at h
  · rename_i hi
    simp at hi
    cases h
    exact ⟨rfl, hi⟩
  · cases h

theorem hmac2_pre_frame {c c1 : HMACContext} {off : Int} {out_size : Nat} {inb : List Byte}
    (h : (c.hmac2_pre off out_size inb).state? = some c1) : SameKeying c c1 := by
  unfold HMACContext.hmac2_pre at h
  simp only at h
  split at h
  · simp [Outcome.state?] at h
    rw [← h]; exact SameKeying.refl _
  · split at h
    · simp [Outcome.state?] at h
      rw [← h]; exact SameKeying.refl _
    · rename_i x hc
      obtain ⟨hx, _⟩ := call_ok hc
      subst hx
      repeat' split at h
      all_goals simp [Outcome.state?] at h
      all_goals subst h
      all_goals exact SameKeying.refl _

theorem hmac_frame {L : Crypto} {c c1 : HMACContext} {out inb out1 : List Byte}
    (h : (c.hmac L out inb).state? = some (c1, out1)) : SameKeying c c1 := by
  unfold HMACContext.hmac at h
  simp only at h
  split at h
  · simp [Outcome.state?] at h
    rw [← h.1]; exact SameKeying.refl _
  · rename_i x hc
    obtain ⟨hx, _⟩ := call_ok hc
    subst hx
    repeat' split at h
    all_goals simp [Outcome.state?] at h
    all_goals obtain ⟨h1, h2⟩ := h
    all_goals subst h1
    all_goals exact SameKeying.refl _

theorem hmac2_gen_frame {L : Crypto} {c c1 : HMACContext} {off : Int} {out_size : Nat}
    {inb in1 : List Byte}
    (h : (c.hmac2_gen L off out_size inb).state? = some (c1, in1)) : SameKeying c c1 := by
  unfold HMACContext.hmac2_gen at h
  split at h
  · simp [Outcome.state?] at h
  · rename_i s e hp
    simp [Outcome.state?] at h
    rw [← h.1]
    exact @hmac2_pre_frame c s off out_size inb (by rw [hp]; rfl)
  · rename_i s a hp
    have hs : SameKeying c s := @hmac2_pre_frame c s off out_size inb (by rw [hp]; rfl)
    repeat' split at h
    all_goals simp [Outcome.state?] at h
    rw [← h.1]; exact hs

theorem hmac2_cmp_frame {L : Crypto} {c c1 : HMACContext} {off : Int} {out_size : Nat}
    {inb : List Byte}
    (h : (c.hmac2_cmp L off out_size inb).state? = some c1) : SameKeying c c1 := by
  unfold HMACContext.hmac2_cmp at h
  split at h
  · simp [Outcome.state?] at h
  · rename_i s e hp
    simp [Outcome.state?] at h
    rw [← h]
    exact @hmac2_pre_frame c s off out_size inb (by rw [hp]; rfl)
  · rename_i s a hp
    have hs : SameKeying c s := @hmac2_pre_frame c s off out_size inb (by rw [hp]; rfl)
    repeat' split at h
    all_goals simp [Outcome.state?] at h
    rw [← h]; exact hs

/-! ## The range check -/

theorem range_accepts_of_inside (off : Int) (out_size in_size : Nat) (h0 : 0 ≤ off)
    (h1 : off + out_size ≤ in_size) :
    HMACContext.range_rejects off out_size in_size = false := by
  unfold HMACContext.range_rejects HMACContext.post_size HMACContext.pre_size size_t_wrap
  simp only [Bool.or_eq_false_iff, decide_eq_false_iff_not, not_lt, gt_iff_lt]
  constructor <;> omega

theorem range_check_exact (off : Int) (out_size in_size : Nat) (hin : in_size < 2 ^ 62)
    (hout : out_size < 2 ^ 62) (h1 : -(2 ^ 62) < off) (h2 : off < 2 ^ 62) :
    HMACContext.range_rejects off out_size in_size = false ↔
      (0 ≤ off ∧ off + out_size ≤ in_size) := by
  unfold HMACContext.range_rejects HMACContext.post_size HMACContext.pre_size size_t_wrap
  simp only [Bool.or_eq_false_iff, decide_eq_false_iff_not, not_lt, gt_iff_lt]
  constructor
  · rintro ⟨ha, hb⟩
    constructor <;> omega
  · rintro ⟨ha, hb⟩
    constructor <;> omega

theorem range_partition (off : Int) (out_size in_size : Nat) (h0 : 0 ≤ off)
    (h1 : off + out_size ≤ in_size) (hin : in_size < 2 ^ 64) :
    HMACContext.pre_size off + out_size + HMACContext.post_size off out_size in_size
      = in_size := by
  unfold HMACContext.post_size HMACContext.pre_size size_t_wrap
  omega

theorem hmac2_pre_rejects (c : HMACContext) (off : Int) (out_size : Nat) (inb : List Byte)
    (h : HMACContext.range_rejects off out_size inb.length = true) :
    c.hmac2_pre off out_size inb = .throws c .digest_output_buffer := by
  unfold HMACContext.hmac2_pre
  simp [h]

/-! ## Initialisation -/

theorem erase_initialized (w : HMAC_CTX_wrapper) : w.erase.initialized = false := by
  unfold HMAC_CTX_wrapper.erase
  split
  · rfl
  · rename_i h; simpa using h

theorem init_of_undefined (c : HMACContext) (d : Digest) (k : StaticKey)
    (hd : d.defined = false) :
    c.init d k = .returns { digest_ := d, key_ := k, ctx := c.ctx.erase } () := by
  unfold HMACContext.init
  simp [hd]

theorem init_of_short_key (c : HMACContext) (d : Digest) (k : StaticKey) (md : EVP_MD)
    (hd : d.digest_ = some md) (hk : k.length < md.size) :
    c.init d k = .throws { digest_ := d, key_ := k, ctx := c.ctx.erase }
      .digest_init_insufficient_key_material := by
  unfold HMACContext.init
  simp [Digest.defined, Digest.size, hd, hk]

theorem init_of_long_key (c : HMACContext) (d : Digest) (k : StaticKey) (md : EVP_MD)
    (hd : d.digest_ = some md) (hk : md.size ≤ k.length) :
    c.init d k = .returns
      { digest_ := d
        key_ := k
        ctx := { ctx := { md := some md, key := k.take md.size, data := [] }
                 initialized := true } } () := by
  have hs : md.size < 2 ^ 31 := by
    have h := md.size_le
    unfold EVP_MAX_MD_SIZE at h
    omega
  unfold HMACContext.init
  simp [Digest.defined, Digest.size, Digest.get, hd, Nat.not_lt.mpr hk,
    HMAC_CTX_wrapper.init, HMAC_CTX_wrapper.call, HMAC_Init_ex, HMAC_CTX_init,
    int_cast_of_lt hs]

theorem init_inv {c c1 : HMACContext} {d : Digest} {k : StaticKey}
    (h : (c.init d k).state? = some c1) : Inv c1 := by
  cases hd : d.digest_ with
  | none =>
    have hu : d.defined = false := by simp [Digest.defined, hd]
    rw [init_of_undefined c d k hu] at h
    simp [Outcome.state?] at h
    subst h
    intro hi
    simp [erase_initialized] at hi
  | some md =>
    by_cases hk : k.length < md.size
    · rw [init_of_short_key c d k md hd hk] at h
      simp [Outcome.state?] at h
      subst h
      intro hi
      simp [erase_initialized] at hi
    · rw [init_of_long_key c d k md hd (Nat.not_lt.mp hk)] at h
      simp [Outcome.state?] at h
      subst h
      intro _
      exact ⟨md, hd, rfl, rfl, rfl, Nat.not_lt.mp hk⟩

theorem inv_mk_default : Inv HMACContext.mk_default := by
  intro h
  simp [HMACContext.mk_default, HMAC_CTX_wrapper.mk_default] at h

theorem reachable_inv {L : Crypto} {c : HMACContext} (h : Reachable L c) : Inv c := by
  induction h with
  | default => exact inv_mk_default
  | ctor d k c hc =>
    exact @init_inv HMACContext.mk_default c d k
      (by unfold HMACContext.mk_init at hc; rw [hc]; rfl)
  | copy r c _ hc _ =>
    exact @init_inv HMACContext.mk_default c r.digest_ r.key_
      (by unfold HMACContext.mk_copy at hc; rw [hc]; rfl)
  | init c d k c1 _ hs _ => exact init_inv hs
  | assign c r same c1 _ _ _ hs ih _ =>
    unfold HMACContext.assign at hs
    split at hs
    · exact init_inv hs
    · simp [Outcome.state?] at hs
      rw [← hs]; exact ih
  | output_size c c1 _ hs ih => rw [output_size_frame hs]; exact ih
  | hmac c out inb c1 out1 _ hs ih => exact (hmac_frame hs).inv ih
  | hmac2_gen c off out_size inb c1 in1 _ hs ih => exact (hmac2_gen_frame hs).inv ih
  | hmac2_cmp c off out_size inb c1 _ hs ih => exact (hmac2_cmp_frame hs).inv ih

theorem reachable_keyed {L : Crypto} {c : HMACContext} (h : Reachable L c)
    (hd : c.defined = true) : ∃ md, Keyed c md :=
  reachable_inv h hd

theorem reachable_ctx32 : Reachable sumCrypto ctx32 :=
  Reachable.ctor ⟨some sum32⟩ key32 ctx32
    (by
      unfold HMACContext.mk_init
      rw [init_of_long_key HMACContext.mk_default ⟨some sum32⟩ key32 sum32 rfl (by decide)]
      rfl)

/-! ## The members on a keyed context -/

theorem keyed_call {c : HMACContext} {md : EVP_MD} (hk : Keyed c md) :
    c.ctx.call = .ok c.ctx.ctx := by
  unfold HMAC_CTX_wrapper.call
  simp [hk.2.1]

theorem keyed_size {c : HMACContext} {md : EVP_MD} (hk : Keyed c md) :
    HMAC_size c.ctx.ctx = some md.size := by
  unfold HMAC_size
  simp [hk.2.2.1]

theorem keyed_tag_of (L : Crypto) {c : HMACContext} {md : EVP_MD} (hk : Keyed c md)
    (msg : List Byte) : tag_of L c msg = L.HMAC md (c.key_.take md.size) msg := by
  unfold tag_of
  simp [hk.1]

theorem tag_of_length (L : Crypto) {c : HMACContext} {md : EVP_MD} (hk : Keyed c md)
    (msg : List Byte) : (tag_of L c msg).length = md.size := by
  rw [keyed_tag_of L hk, L.HMAC_length]

theorem keyed_output_size {c : HMACContext} {md : EVP_MD} (hk : Keyed c md) :
    c.output_size = .returns c md.size := by
  unfold HMACContext.output_size
  simp [keyed_call hk, keyed_size hk]

theorem keyed_final (L : Crypto) {c : HMACContext} {md : EVP_MD} (hk : Keyed c md)
    (data : List Byte) :
    HMAC_Final L (with_data c data).ctx.ctx = some (tag_of L c data) := by
  rw [keyed_tag_of L hk]
  unfold HMAC_Final with_data
  simp [hk.2.2.1, hk.2.2.2.1]

theorem mem_read_at (buf a b d : List Byte) (start len : Int) (hb : buf = a ++ b ++ d)
    (hs : start = a.length) (hl : len = b.length) : mem_read buf start len = some b := by
  subst hb; subst hs; subst hl
  exact mem_read_inside a b d

theorem mem_write_at (buf a b d bytes : List Byte) (start : Int) (hb : buf = a ++ b ++ d)
    (hs : start = a.length) (hl : bytes.length = b.length) :
    mem_write buf start bytes = some (a ++ bytes ++ d) := by
  subst hb; subst hs
  exact mem_write_inside a b d bytes hl

theorem hmac2_pre_size_mismatch {c : HMACContext} {md : EVP_MD} (hk : Keyed c md)
    (off : Int) (out_size : Nat) (inb : List Byte)
    (hr : HMACContext.range_rejects off out_size inb.length = false)
    (hne : out_size ≠ md.size) :
    c.hmac2_pre off out_size inb = .throws c .digest_output_buffer := by
  unfold HMACContext.hmac2_pre
  simp [hr, keyed_call hk, keyed_size hk, uint_cast_size, hne]

theorem hmac2_pre_split {c : HMACContext} {md : EVP_MD} (hk : Keyed c md)
    (pre slot post : List Byte) (hs : slot.length = md.size)
    (hlen : (pre ++ slot ++ post).length < 2 ^ 31) :
    c.hmac2_pre pre.length slot.length (pre ++ slot ++ post)
      = .returns (with_data c (pre ++ post)) () := by
  have hlen1 : pre.length + slot.length + post.length < 2 ^ 31 := by
    simp only [List.length_append] at hlen; omega
  have hr : HMACContext.range_rejects (pre.length : Int) slot.length
      (pre ++ slot ++ post).length = false := by
    apply range_accepts_of_inside
    · omega
    · simp only [List.length_append]; omega
  have hpre : HMACContext.pre_size (pre.length : Int) = pre.length := by
    unfold HMACContext.pre_size size_t_wrap; omega
  have hpost : HMACContext.post_size (pre.length : Int) slot.length
      (pre ++ slot ++ post).length = post.length := by
    unfold HMACContext.post_size HMACContext.pre_size size_t_wrap
    simp only [List.length_append]; omega
  have h1 : mem_read (pre ++ slot ++ post) 0 (int_cast pre.length) = some pre := by
    rw [int_cast_of_lt (by omega)]
    exact mem_read_at _ [] pre (slot ++ post) _ _ (by simp) (by simp) rfl
  have h2 : mem_read (pre ++ slot ++ post) ((pre.length : Int) + (slot.length : Int))
      (int_cast post.length) = some post := by
    rw [int_cast_of_lt (by omega)]
    exact mem_read_at _ (pre ++ slot) post [] _ _ (by simp) (by simp) rfl
  unfold HMACContext.hmac2_pre
  simp only [hr, hpre, hpost, keyed_call hk, keyed_size hk, uint_cast_size, h1, h2]
  simp [hs, with_data, HMAC_Update, HMAC_Init_ex]

theorem hmac2_gen_split (L : Crypto) {c : HMACContext} {md : EVP_MD} (hk : Keyed c md)
    (pre slot post : List Byte) (hs : slot.length = md.size)
    (hlen : (pre ++ slot ++ post).length < 2 ^ 31) :
    c.hmac2_gen L pre.length slot.length (pre ++ slot ++ post)
      = .returns (with_data c (pre ++ post), pre ++ tag_of L c (pre ++ post) ++ post) () := by
  unfold HMACContext.hmac2_gen
  rw [hmac2_pre_split hk pre slot post hs hlen]
  simp only [keyed_final L hk]
  rw [mem_write_at _ pre slot post _ _ rfl rfl (by rw [tag_of_length L hk, hs])]

theorem hmac2_cmp_split (L : Crypto) {c : HMACContext} {md : EVP_MD} (hk : Keyed c md)
    (pre slot post : List Byte) (hs : slot.length = md.size)
    (hlen : (pre ++ slot ++ post).length < 2 ^ 31) :
    c.hmac2_cmp L pre.length slot.length (pre ++ slot ++ post)
      = .returns (with_data c (pre ++ post)) (decide (slot = tag_of L c (pre ++ post))) := by
  unfold HMACContext.hmac2_cmp
  rw [hmac2_pre_split hk pre slot post hs hlen]
  simp only [keyed_final L hk]
  rw [mem_read_at _ pre slot post _ _ rfl rfl rfl]
  have ht : (tag_of L c (pre ++ post)).take slot.length = tag_of L c (pre ++ post) := by
    apply List.take_of_length_le
    rw [tag_of_length L hk, hs]
  simp only [ht]

theorem with_data_keyed {c : HMACContext} {md : EVP_MD} (hk : Keyed c md)
    (data : List Byte) : Keyed (with_data c data) md := by
  obtain ⟨k1, k2, k3, k4, k5⟩ := hk
  exact ⟨k1, k2, k3, k4, k5⟩

theorem hmac2_pre_eval {c : HMACContext} {md : EVP_MD} (hk : Keyed c md)
    (off : Int) (out_size : Nat) (inb : List Byte)
    (hr : HMACContext.range_rejects off out_size inb.length = false)
    (hs : out_size = md.size) :
    c.hmac2_pre off out_size inb =
      match mem_read inb 0 (int_cast (HMACContext.pre_size off)) with
      | none => .undefined
      | some p =>
        match mem_read inb (off + out_size)
            (int_cast (HMACContext.post_size off out_size inb.length)) with
        | none => .undefined
        | some q => .returns (with_data c (p ++ q)) () := by
  unfold HMACContext.hmac2_pre
  simp only [hr, keyed_call hk, keyed_size hk, uint_cast_size]
  simp only [hs, ne_eq, not_true_eq_false, ite_false, Bool.false_eq_true]
  cases mem_read inb 0 (int_cast (HMACContext.pre_size off)) with
  | none => rfl
  | some p =>
    cases mem_read inb (off + (md.size : Int))
        (int_cast (HMACContext.post_size off md.size inb.length)) with
    | none => rfl
    | some q => simp [with_data, HMAC_Update, HMAC_Init_ex]

theorem hmac2_pre_no_throw {c : HMACContext} {md : EVP_MD} (hk : Keyed c md)
    (off : Int) (out_size : Nat) (inb : List Byte)
    (hr : HMACContext.range_rejects off out_size inb.length = false)
    (hs : out_size = md.size) (s : HMACContext) (e : Exn) :
    c.hmac2_pre off out_size inb ≠ .throws s e := by
  rw [hmac2_pre_eval hk off out_size inb hr hs]
  cases mem_read inb 0 (int_cast (HMACContext.pre_size off)) with
  | none => simp
  | some p =>
    cases mem_read inb (off + (out_size : Int))
        (int_cast (HMACContext.post_size off out_size inb.length)) with
    | none => simp
    | some q => simp

theorem split_buffer (inb : List Byte) (off : Int) (out_size : Nat) (h0 : 0 ≤ off)
    (h1 : off + out_size ≤ inb.length) :
    ∃ pre slot post : List Byte, inb = pre ++ slot ++ post ∧ off = pre.length ∧
      slot.length = out_size := by
  refine ⟨inb.take off.toNat, (inb.drop off.toNat).take out_size,
    (inb.drop off.toNat).drop out_size, ?_, ?_, ?_⟩
  · rw [List.append_assoc, List.take_append_drop, List.take_append_drop]
  · rw [List.length_take]; omega
  · rw [List.length_take, List.length_drop]; omega

theorem tag_of_with_data (L : Crypto) (c : HMACContext) (data msg : List Byte) :
    tag_of L (with_data c data) msg = tag_of L c msg := rfl

theorem output_size_eq {c : HMACContext} {md : EVP_MD} (hk : Keyed c md) {n : Nat}
    (h : c.output_size = .returns c n) : n = md.size := by
  rw [keyed_output_size hk] at h
  cases h
  rfl

theorem keyed_ctx32 : Keyed ctx32 sum32 :=
  ⟨rfl, rfl, rfl, rfl, by decide⟩

theorem mem_read_negative (buf : List Byte) (start len : Int) (h : len < 0) :
    mem_read buf start len = none := by
  unfold mem_read
  have h1 : ¬ len = 0 := by omega
  have h2 : ¬ (0 ≤ start ∧ 0 < len ∧ start + len ≤ (buf.length : Int)) := by omega
  rw [if_neg h1, if_neg h2]

theorem hmac2_pre_undefined_of_negative {c : HMACContext} {md : EVP_MD} (hk : Keyed c md)
    (off : Int) (out_size : Nat) (inb : List Byte)
    (hr : HMACContext.range_rejects off out_size inb.length = false)
    (hs : out_size = md.size) (hneg : int_cast (HMACContext.pre_size off) < 0) :
    c.hmac2_pre off out_size inb = .undefined := by
  rw [hmac2_pre_eval hk off out_size inb hr hs, mem_read_negative _ _ _ hneg]

theorem hmac2_gen_undefined_of_negative (L : Crypto) {c : HMACContext} {md : EVP_MD}
    (hk : Keyed c md) (off : Int) (out_size : Nat) (inb : List Byte)
    (hr : HMACContext.range_rejects off out_size inb.length = false)
    (hs : out_size = md.size) (hneg : int_cast (HMACContext.pre_size off) < 0) :
    c.hmac2_gen L off out_size inb = .undefined := by
  unfold HMACContext.hmac2_gen
  rw [hmac2_pre_undefined_of_negative hk off out_size inb hr hs hneg]

theorem buf_2g_length : buf_2g.length = 2147483680 := by
  unfold buf_2g
  rw [List.length_append, List.length_replicate, List.length_replicate]

/-! ## C1: round trip of `hmac2_gen` and `hmac2_cmp` -/

/-- C1 (amended): for every Ready context and every buffer of fewer than 2^31
bytes whose tag slot (offset `off`, `out_size = output_size()`) lies inside the
buffer, `hmac2_gen` returns and `hmac2_cmp` on the resulting buffer, with the
same offset and sizes, returns true. -/
theorem C1_round_trip (L : Crypto) (c : HMACContext) (off : Int) (out_size : Nat)
    (inb : List Byte) (hr : Reachable L c) (hd : c.defined = true)
    (hsz : c.output_size = .returns c out_size) (h0 : 0 ≤ off)
    (h1 : off + out_size ≤ inb.length) (hlen : inb.length < 2 ^ 31) :
    ∃ c1 in1, c.hmac2_gen L off out_size inb = .returns (c1, in1) () ∧
      ∃ c2, c1.hmac2_cmp L off out_size in1 = .returns c2 true := by
  obtain ⟨md, hk⟩ := reachable_keyed hr hd
  have hmd : out_size = md.size := output_size_eq hk hsz
  obtain ⟨pre, slot, post, hb, ho, hs⟩ := split_buffer inb off out_size h0 h1
  subst hb; subst ho; subst hs
  have hT : (tag_of L c (pre ++ post)).length = md.size := tag_of_length L hk _
  refine ⟨with_data c (pre ++ post), pre ++ tag_of L c (pre ++ post) ++ post,
    hmac2_gen_split L hk pre slot post hmd hlen, with_data (with_data c (pre ++ post))
      (pre ++ post), ?_⟩
  have hlen2 : (pre ++ tag_of L c (pre ++ post) ++ post).length < 2 ^ 31 := by
    simp only [List.length_append] at hlen ⊢
    omega
  have h := hmac2_cmp_split L (with_data_keyed hk (pre ++ post)) pre
    (tag_of L c (pre ++ post)) post hT hlen2
  rw [tag_of_with_data] at h
  rw [hT, ← hmd] at h
  simpa using h

/-- The 48 byte buffer with the slot at offset 10 and a 32 byte tag. -/
theorem C1_round_trip_witness :
    Reachable sumCrypto ctx32 ∧ ctx32.defined = true ∧
      ctx32.output_size = .returns ctx32 32 ∧ (0 : Int) ≤ 10 ∧
      (10 : Int) + (32 : Nat) ≤ buf48.length ∧ buf48.length < 2 ^ 31 ∧
      ∃ c1 in1, ctx32.hmac2_gen sumCrypto 10 32 buf48 = .returns (c1, in1) () ∧
        ∃ c2, c1.hmac2_cmp sumCrypto 10 32 in1 = .returns c2 true :=
  ⟨reachable_ctx32, rfl, rfl, by decide, by decide, by decide,
    C1_round_trip sumCrypto ctx32 10 32 buf48 reachable_ctx32 rfl rfl (by decide)
      (by decide) (by decide)⟩

/-- C1 as stated fails on a buffer of 2^31 + 32 bytes with the slot at offset
2^31: `int(pre_size)` is negative and `hmac2_gen` has no defined result. -/
theorem C1_counterexample :
    Reachable sumCrypto ctx32 ∧ ctx32.defined = true ∧
      ctx32.output_size = .returns ctx32 32 ∧ (0 : Int) ≤ 2147483648 ∧
      (2147483648 : Int) + (32 : Nat) ≤ buf_2g.length ∧
      int_cast (HMACContext.pre_size 2147483648) = -2147483648 ∧
      ctx32.hmac2_gen sumCrypto 2147483648 32 buf_2g = .undefined := by
  have hr : HMACContext.range_rejects 2147483648 32 buf_2g.length = false := by
    rw [buf_2g_length]
    exact range_accepts_of_inside 2147483648 32 2147483680 (by omega) (by omega)
  have hc : int_cast (HMACContext.pre_size 2147483648) = -2147483648 := by
    unfold HMACContext.pre_size size_t_wrap int_cast
    split <;> omega
  refine ⟨reachable_ctx32, rfl, rfl, by omega, ?_, hc, ?_⟩
  · rw [buf_2g_length]; omega
  · exact hmac2_gen_undefined_of_negative sumCrypto keyed_ctx32 2147483648 32 buf_2g hr rfl
      (by rw [hc]; omega)

/-! ## Buffers of 2^32 bytes and more: `int(...)` drops the high bits -/

theorem hmac2_pre_wrapped {c : HMACContext} {md : EVP_MD} (hk : Keyed c md)
    (pre slot post : List Byte) (hs : slot.length = md.size)
    (hpre : int_cast (HMACContext.pre_size pre.length) = 0)
    (hpost : post.length < 2 ^ 31) (hlen : (pre ++ slot ++ post).length < 2 ^ 64) :
    c.hmac2_pre pre.length slot.length (pre ++ slot ++ post)
      = .returns (with_data c post) () := by
  have hlen1 : pre.length + slot.length + post.length < 2 ^ 64 := by
    simp only [List.length_append] at hlen; omega
  have hr : HMACContext.range_rejects (pre.length : Int) slot.length
      (pre ++ slot ++ post).length = false := by
    apply range_accepts_of_inside
    · omega
    · simp only [List.length_append]; omega
  have hps : HMACContext.post_size (pre.length : Int) slot.length
      (pre ++ slot ++ post).length = post.length := by
    unfold HMACContext.post_size HMACContext.pre_size size_t_wrap
    simp only [List.length_append]; omega
  have h2 : mem_read (pre ++ slot ++ post) ((pre.length : Int) + (slot.length : Int))
      (int_cast post.length) = some post := by
    rw [int_cast_of_lt hpost]
    exact mem_read_at _ (pre ++ slot) post [] _ _ (by simp) (by simp) rfl
  rw [hmac2_pre_eval hk _ _ _ hr hs, hpre, mem_read_zero, hps]
  simp only [h2, List.nil_append]

theorem hmac2_cmp_wrapped (L : Crypto) {c : HMACContext} {md : EVP_MD} (hk : Keyed c md)
    (pre slot post : List Byte) (hs : slot.length = md.size)
    (hpre : int_cast (HMACContext.pre_size pre.length) = 0)
    (hpost : post.length < 2 ^ 31) (hlen : (pre ++ slot ++ post).length < 2 ^ 64) :
    c.hmac2_cmp L pre.length slot.length (pre ++ slot ++ post)
      = .returns (with_data c post) (decide (slot = tag_of L c post)) := by
  unfold HMACContext.hmac2_cmp
  rw [hmac2_pre_wrapped hk pre slot post hs hpre hpost hlen]
  simp only [keyed_final L hk]
  rw [mem_read_at _ pre slot post _ _ rfl rfl rfl]
  have ht : (tag_of L c post).take slot.length = tag_of L c post := by
    apply List.take_of_length_le
    rw [tag_of_length L hk, hs]
  simp only [ht]

theorem hmac2_gen_wrapped (L : Crypto) {c : HMACContext} {md : EVP_MD} (hk : Keyed c md)
    (pre slot post : List Byte) (hs : slot.length = md.size)
    (hpre : int_cast (HMACContext.pre_size pre.length) = 0)
    (hpost : post.length < 2 ^ 31) (hlen : (pre ++ slot ++ post).length < 2 ^ 64) :
    c.hmac2_gen L pre.length slot.length (pre ++ slot ++ post)
      = .returns (with_data c post, pre ++ tag_of L c post ++ post) () := by
  unfold HMACContext.hmac2_gen
  rw [hmac2_pre_wrapped hk pre slot post hs hpre hpost hlen]
  simp only [keyed_final L hk]
  rw [mem_write_at _ pre slot post _ _ rfl rfl (by rw [tag_of_length L hk, hs])]

theorem pre_4g_length : pre_4g.length = 4294967296 := by
  unfold pre_4g
  rw [List.length_replicate]

theorem int_cast_4g : int_cast (HMACContext.pre_size (4294967296 : Nat)) = 0 := by
  unfold HMACContext.pre_size size_t_wrap int_cast
  split <;> omega

theorem checksum_zeros (key post : List Byte) (n : Nat) :
    checksum key (List.replicate n 0 ++ post)
      = ((key.map Fin.val).sum + (post.map Fin.val).sum + 7 * (n + post.length) + 1) % 251 := by
  unfold checksum
  simp [List.sum_replicate]

theorem checksum_zeros_ne (key post : List Byte) (n : Nat) (h : 7 * n % 251 ≠ 0) :
    checksum key (List.replicate n 0 ++ post) ≠ checksum key post := by
  rw [checksum_zeros]
  unfold checksum
  omega

theorem checksum_lt (key msg : List Byte) : checksum key msg < 251 := by
  unfold checksum
  omega

theorem sum_tag_zeros_ne (c : HMACContext) (md : EVP_MD) (hk : Keyed c md)
    (hmd : 0 < md.size) (post : List Byte) (n : Nat) (h : 7 * n % 251 ≠ 0) :
    tag_of sumCrypto c (List.replicate n 0 ++ post) ≠ tag_of sumCrypto c post := by
  rw [keyed_tag_of sumCrypto hk, keyed_tag_of sumCrypto hk]
  intro he
  have h1 : (Fin.ofNat (checksum (c.key_.take md.size) (List.replicate n 0 ++ post)) : Byte)
      = Fin.ofNat (checksum (c.key_.take md.size) post) := by
    have := (List.replicate_right_inj (by omega : md.size ≠ 0)).mp he
    exact this
  have h2 : checksum (c.key_.take md.size) (List.replicate n 0 ++ post) % 256
      = checksum (c.key_.take md.size) post % 256 := congrArg Fin.val h1
  have h3 := checksum_lt (c.key_.take md.size) (List.replicate n 0 ++ post)
  have h4 := checksum_lt (c.key_.take md.size) post
  exact checksum_zeros_ne (c.key_.take md.size) post n h (by omega)

theorem tag6_length : tag6.length = 32 := tag_of_length sumCrypto keyed_ctx32 post6

theorem sum_tag_pre_ne (pre post : List Byte) (n : Nat) (hp : pre = List.replicate n 0)
    (h : 7 * n % 251 ≠ 0) :
    tag_of sumCrypto ctx32 post ≠ tag_of sumCrypto ctx32 (pre ++ post) := by
  subst hp
  exact fun he => sum_tag_zeros_ne ctx32 sum32 keyed_ctx32 (by decide) post n h he.symm

theorem buf_4g_length (slot : List Byte) (hs : slot.length = 32) :
    (pre_4g ++ slot ++ post6).length < 2 ^ 64 := by
  have h6 : post6.length = 6 := rfl
  rw [List.length_append, List.length_append, pre_4g_length, hs, h6]
  omega

theorem int_cast_pre_4g : int_cast (HMACContext.pre_size pre_4g.length) = 0 := by
  rw [pre_4g_length]
  exact int_cast_4g

/-! ## C2: what `hmac2_cmp` decides -/

/-- C2 (amended): for every Ready context and every buffer
`in = pre ++ slot ++ post` of fewer than 2^31 bytes with
`|slot| = out_size = output_size()`, `hmac2_cmp` returns, and it returns true
if and only if the slot bytes equal the HMAC (under the stored key) of `pre`
followed by `post`, a tag of exactly `out_size` bytes; in particular, after
`hmac2_gen`, a buffer in which only the slot contents were replaced is accepted
only if the new contents equal that tag. -/
theorem C2_cmp_iff_tag (L : Crypto) (c : HMACContext) (pre slot post : List Byte)
    (hr : Reachable L c) (hd : c.defined = true)
    (hsz : c.output_size = .returns c slot.length)
    (hlen : (pre ++ slot ++ post).length < 2 ^ 31) :
    (tag_of L c (pre ++ post)).length = slot.length ∧
    (∃ c1 b, c.hmac2_cmp L pre.length slot.length (pre ++ slot ++ post) = .returns c1 b ∧
      (b = true ↔ slot = tag_of L c (pre ++ post))) ∧
    (∀ slot2 : List Byte, slot2.length = slot.length →
      ∃ c1 in1 c2 b, c.hmac2_gen L pre.length slot.length (pre ++ slot ++ post)
          = .returns (c1, in1) () ∧
        c1.hmac2_cmp L pre.length slot.length (pre ++ slot2 ++ post) = .returns c2 b ∧
        (b = true ↔ slot2 = tag_of L c (pre ++ post))) := by
  obtain ⟨md, hk⟩ := reachable_keyed hr hd
  have hmd : slot.length = md.size := output_size_eq hk hsz
  refine ⟨by rw [tag_of_length L hk, hmd], ?_, ?_⟩
  · exact ⟨_, _, hmac2_cmp_split L hk pre slot post hmd hlen, by simp⟩
  · intro slot2 h2
    have hlen2 : (pre ++ slot2 ++ post).length < 2 ^ 31 := by
      simp only [List.length_append] at hlen ⊢
      omega
    have hc := hmac2_cmp_split L (with_data_keyed hk (pre ++ post)) pre slot2 post
      (h2.trans hmd) hlen2
    rw [h2, tag_of_with_data] at hc
    exact ⟨_, _, _, _, hmac2_gen_split L hk pre slot post hmd hlen, hc, by simp⟩

/-- The 48 byte buffer: 10 bytes, a 32 byte slot, 6 bytes. -/
theorem C2_cmp_iff_tag_witness :
    Reachable sumCrypto ctx32 ∧ ctx32.defined = true ∧
    ctx32.output_size = .returns ctx32 slot0.length ∧
    (pre10 ++ slot0 ++ post6).length < 2 ^ 31 ∧
    ((tag_of sumCrypto ctx32 (pre10 ++ post6)).length = slot0.length ∧
    (∃ c1 b, ctx32.hmac2_cmp sumCrypto pre10.length slot0.length (pre10 ++ slot0 ++ post6)
        = .returns c1 b ∧
      (b = true ↔ slot0 = tag_of sumCrypto ctx32 (pre10 ++ post6))) ∧
    (∀ slot2 : List Byte, slot2.length = slot0.length →
      ∃ c1 in1 c2 b, ctx32.hmac2_gen sumCrypto pre10.length slot0.length
          (pre10 ++ slot0 ++ post6) = .returns (c1, in1) () ∧
        c1.hmac2_cmp sumCrypto pre10.length slot0.length (pre10 ++ slot2 ++ post6)
          = .returns c2 b ∧
        (b = true ↔ slot2 = tag_of sumCrypto ctx32 (pre10 ++ post6)))) :=
  ⟨reachable_ctx32, rfl, rfl, by decide,
    C2_cmp_iff_tag sumCrypto ctx32 pre10 slot0 post6 reachable_ctx32 rfl rfl (by decide)⟩

/-- C2 as stated fails on a buffer of 2^32 + 38 bytes with the slot at offset
2^32: `int(pre_size)` is 0, the 2^32 bytes before the slot are not hashed, and
`hmac2_cmp` accepts a slot that holds the tag of `post` alone, which is not the
tag of `pre` followed by `post`. -/
theorem C2_counterexample :
    Reachable sumCrypto ctx32 ∧ ctx32.defined = true ∧
    pre_4g.length = 4294967296 ∧ tag6.length = 32 ∧
    ctx32.output_size = .returns ctx32 tag6.length ∧
    ctx32.hmac2_cmp sumCrypto pre_4g.length tag6.length (pre_4g ++ tag6 ++ post6)
      = .returns (with_data ctx32 post6) true ∧
    tag6 ≠ tag_of sumCrypto ctx32 (pre_4g ++ post6) := by
  have hc := hmac2_cmp_wrapped sumCrypto keyed_ctx32 pre_4g tag6 post6 tag6_length
    int_cast_pre_4g (by decide) (buf_4g_length tag6 tag6_length)
  have ht : decide (tag6 = tag_of sumCrypto ctx32 post6) = true := decide_eq_true rfl
  rw [ht] at hc
  have ho : ctx32.output_size = .returns ctx32 tag6.length := by
    rw [tag6_length]; rfl
  exact ⟨reachable_ctx32, rfl, pre_4g_length, tag6_length, ho, hc,
    sum_tag_pre_ne pre_4g post6 4294967296 rfl (by decide)⟩

/-! ## C3: what `hmac2_gen` writes -/

/-- C3 (amended): for every Ready context and every buffer
`in = pre ++ slot ++ post` of fewer than 2^31 bytes with
`|slot| = output_size()`, `hmac2_gen` leaves the buffer equal to
`pre ++ T ++ post` where `T` is the HMAC of `pre` followed by `post`, a tag as
long as the slot: `pre` and `post` are unchanged, the slot is overwritten by the
tag, and the result does not depend on the previous slot contents. -/
theorem C3_gen_overwrites_slot (L : Crypto) (c : HMACContext) (pre slot post : List Byte)
    (hr : Reachable L c) (hd : c.defined = true)
    (hsz : c.output_size = .returns c slot.length)
    (hlen : (pre ++ slot ++ post).length < 2 ^ 31) :
    (tag_of L c (pre ++ post)).length = slot.length ∧
    (∃ c1, c.hmac2_gen L pre.length slot.length (pre ++ slot ++ post)
      = .returns (c1, pre ++ tag_of L c (pre ++ post) ++ post) ()) ∧
    (∀ slot2 : List Byte, slot2.length = slot.length →
      c.hmac2_gen L pre.length slot2.length (pre ++ slot2 ++ post)
        = c.hmac2_gen L pre.length slot.length (pre ++ slot ++ post)) := by
  obtain ⟨md, hk⟩ := reachable_keyed hr hd
  have hmd : slot.length = md.size := output_size_eq hk hsz
  refine ⟨by rw [tag_of_length L hk, hmd], ⟨_, hmac2_gen_split L hk pre slot post hmd hlen⟩, ?_⟩
  intro slot2 h2
  have hlen2 : (pre ++ slot2 ++ post).length < 2 ^ 31 := by
    simp only [List.length_append] at hlen ⊢
    omega
  rw [hmac2_gen_split L hk pre slot post hmd hlen,
    hmac2_gen_split L hk pre slot2 post (h2.trans hmd) hlen2]

/-- The 48 byte buffer: 10 bytes, a 32 byte slot, 6 bytes. -/
theorem C3_gen_overwrites_slot_witness :
    Reachable sumCrypto ctx32 ∧ ctx32.defined = true ∧
    ctx32.output_size = .returns ctx32 slot0.length ∧
    (pre10 ++ slot0 ++ post6).length < 2 ^ 31 ∧
    ((tag_of sumCrypto ctx32 (pre10 ++ post6)).length = slot0.length ∧
    (∃ c1, ctx32.hmac2_gen sumCrypto pre10.length slot0.length (pre10 ++ slot0 ++ post6)
      = .returns (c1, pre10 ++ tag_of sumCrypto ctx32 (pre10 ++ post6) ++ post6) ()) ∧
    (∀ slot2 : List Byte, slot2.length = slot0.length →
      ctx32.hmac2_gen sumCrypto pre10.length slot2.length (pre10 ++ slot2 ++ post6)
        = ctx32.hmac2_gen sumCrypto pre10.length slot0.length (pre10 ++ slot0 ++ post6))) :=
  ⟨reachable_ctx32, rfl, rfl, by decide,
    C3_gen_overwrites_slot sumCrypto ctx32 pre10 slot0 post6 reachable_ctx32 rfl rfl
      (by decide)⟩

/-- C3 as stated fails on a buffer of 2^32 + 38 bytes with the slot at offset
2^32: `int(pre_size)` is 0, so the tag written into the slot is the tag of
`post` alone and not the tag of `pre` followed by `post`. -/
theorem C3_counterexample :
    Reachable sumCrypto ctx32 ∧ ctx32.defined = true ∧
    pre_4g.length = 4294967296 ∧ slot0.length = 32 ∧
    ctx32.output_size = .returns ctx32 slot0.length ∧
    ctx32.hmac2_gen sumCrypto pre_4g.length slot0.length (pre_4g ++ slot0 ++ post6)
      = .returns (with_data ctx32 post6, pre_4g ++ tag_of sumCrypto ctx32 post6 ++ post6) () ∧
    tag_of sumCrypto ctx32 post6 ≠ tag_of sumCrypto ctx32 (pre_4g ++ post6) :=
  ⟨reachable_ctx32, rfl, pre_4g_length, rfl, rfl,
    hmac2_gen_wrapped sumCrypto keyed_ctx32 pre_4g slot0 post6 rfl int_cast_pre_4g
      (by decide) (buf_4g_length slot0 rfl),
    sum_tag_pre_ne pre_4g post6 4294967296 rfl (by decide)⟩

/-! ## C4: the range check of `hmac2_pre` -/

/-- C4: with 64 bit sizes and `in_size`, `out_size` and `|out - in|` all below
2^62, the range check of `hmac2_pre` passes if and only if `0 <= out - in` and
`(out - in) + out_size <= in_size`; when it passes,
`pre_size + out_size + post_size = in_size` in exact arithmetic; when it
rejects, `hmac2_pre` throws `digest_output_buffer` on every buffer of that size
and every context. -/
theorem C4_range_check (off : Int) (out_size in_size : Nat) (hin : in_size < 2 ^ 62)
    (hout : out_size < 2 ^ 62) (hoff : |off| < 2 ^ 62) :
    (HMACContext.range_rejects off out_size in_size = false ↔
      (0 ≤ off ∧ off + out_size ≤ in_size)) ∧
    (HMACContext.range_rejects off out_size in_size = false →
      HMACContext.pre_size off + out_size + HMACContext.post_size off out_size in_size
        = in_size) ∧
    (HMACContext.range_rejects off out_size in_size = true →
      ∀ (c : HMACContext) (inb : List Byte), inb.length = in_size →
        c.hmac2_pre off out_size inb = .throws c .digest_output_buffer) := by
  obtain ⟨h1, h2⟩ := abs_lt.mp hoff
  have hx := range_check_exact off out_size in_size hin hout h1 h2
  refine ⟨hx, ?_, ?_⟩
  · intro h
    obtain ⟨ha, hb⟩ := hx.mp h
    exact range_partition off out_size in_size ha hb (by omega)
  · intro h c inb hl
    subst hl
    exact hmac2_pre_rejects c off out_size inb h

/-- The slot at offset 10 of 48 bytes, 32 bytes long: the check passes and the
regions have 10, 32 and 6 bytes. -/
theorem C4_range_check_witness :
    (48 : Nat) < 2 ^ 62 ∧ (32 : Nat) < 2 ^ 62 ∧ |(10 : Int)| < 2 ^ 62 ∧
    HMACContext.range_rejects 10 32 48 = false ∧
    (0 : Int) ≤ 10 ∧ (10 : Int) + (32 : Nat) ≤ (48 : Nat) ∧
    HMACContext.pre_size 10 + 32 + HMACContext.post_size 10 32 48 = 48 := by
  have h := C4_range_check 10 32 48 (by norm_num) (by norm_num) (by norm_num)
  have hr : HMACContext.range_rejects 10 32 48 = false := by decide
  exact ⟨by norm_num, by norm_num, by norm_num, hr, (h.1.mp hr).1, (h.1.mp hr).2, h.2.1 hr⟩

/-! ## C5: the slot must be exactly tag-sized -/

/-- C5: for every Ready context and every slot lying inside the buffer,
`hmac2_gen` and `hmac2_cmp` throw `digest_output_buffer` whenever `out_size`
differs from `output_size()`, leaving context and buffer unchanged; and
`hmac2_pre` throws `digest_output_buffer` exactly when the two differ, so the
size validation is passed only with `out_size == output_size()`. -/
theorem C5_slot_size_exact (L : Crypto) (c : HMACContext) (off : Int) (out_size n : Nat)
    (inb : List Byte) (hr : Reachable L c) (hd : c.defined = true)
    (hsz : c.output_size = .returns c n) (h0 : 0 ≤ off)
    (h1 : off + out_size ≤ inb.length) :
    (out_size ≠ n →
      c.hmac2_gen L off out_size inb = .throws (c, inb) .digest_output_buffer ∧
      c.hmac2_cmp L off out_size inb = .throws c .digest_output_buffer) ∧
    ((∃ s, c.hmac2_pre off out_size inb = .throws s .digest_output_buffer) ↔
      out_size ≠ n) := by
  obtain ⟨md, hk⟩ := reachable_keyed hr hd
  have hn : n = md.size := output_size_eq hk hsz
  subst hn
  have hrg := range_accepts_of_inside off out_size inb.length h0 h1
  constructor
  · intro hne
    have hp := hmac2_pre_size_mismatch hk off out_size inb hrg hne
    constructor
    · unfold HMACContext.hmac2_gen; rw [hp]
    · unfold HMACContext.hmac2_cmp; rw [hp]
  · constructor
    · rintro ⟨s, hs⟩ heq
      exact hmac2_pre_no_throw hk off out_size inb hrg heq s _ hs
    · intro hne
      exact ⟨c, hmac2_pre_size_mismatch hk off out_size inb hrg hne⟩

/-- A 16 byte slot at offset 10 of the 48 byte buffer, with a 32 byte tag. -/
theorem C5_slot_size_exact_witness :
    Reachable sumCrypto ctx32 ∧ ctx32.defined = true ∧
    ctx32.output_size = .returns ctx32 32 ∧ (0 : Int) ≤ 10 ∧
    (10 : Int) + (16 : Nat) ≤ buf48.length ∧ 16 ≠ 32 ∧
    ctx32.hmac2_gen sumCrypto 10 16 buf48 = .throws (ctx32, buf48) .digest_output_buffer ∧
    ctx32.hmac2_cmp sumCrypto 10 16 buf48 = .throws ctx32 .digest_output_buffer ∧
    ((∃ s, ctx32.hmac2_pre 10 16 buf48 = .throws s .digest_output_buffer) ↔ 16 ≠ 32) := by
  have h := C5_slot_size_exact sumCrypto ctx32 10 16 32 buf48 reachable_ctx32 rfl rfl
    (by decide) (by decide)
  exact ⟨reachable_ctx32, rfl, rfl, by decide, by decide, by decide,
    (h.1 (by decide)).1, (h.1 (by decide)).2, h.2⟩

/-! ## The member `hmac` on a keyed context -/

theorem hmac_eval (L : Crypto) {c : HMACContext} {md : EVP_MD} (hk : Keyed c md)
    (out inb : List Byte) :
    c.hmac L out inb =
      if out.length < md.size then .throws (c, out) .digest_output_buffer
      else
        match mem_read inb 0 (int_cast inb.length) with
        | none => .undefined
        | some bytes =>
          .returns (with_data c bytes, tag_of L c bytes ++ out.drop md.size) md.size := by
  unfold HMACContext.hmac
  simp only [keyed_call hk, keyed_size hk, uint_cast_size]
  by_cases hlt : out.length < md.size
  · simp [hlt]
  · simp only [hlt, ite_false]
    cases mem_read inb 0 (int_cast inb.length) with
    | none => rfl
    | some bytes =>
      have hf : HMAC_Final L (HMAC_Update (HMAC_Init_ex c.ctx.ctx none 0 none) bytes)
          = some (tag_of L c bytes) := by
        rw [keyed_tag_of L hk]
        unfold HMAC_Final HMAC_Update HMAC_Init_ex
        simp [hk.2.2.1, hk.2.2.2.1]
      have hl : (tag_of L c bytes).length = md.size := tag_of_length L hk bytes
      have hw : mem_write out 0 (tag_of L c bytes)
          = some (tag_of L c bytes ++ out.drop md.size) := by
        have h := mem_write_at out [] (out.take md.size) (out.drop md.size)
          (tag_of L c bytes) 0 (by simp) (by simp)
          (by rw [hl, List.length_take]; omega)
        simpa using h
      simp only [hf, hw, hl, uint_cast_size]
      simp [with_data, HMAC_Update, HMAC_Init_ex]

theorem hmac_small (L : Crypto) {c : HMACContext} {md : EVP_MD} (hk : Keyed c md)
    (out inb : List Byte) (ho : md.size ≤ out.length) (hi : inb.length < 2 ^ 31) :
    c.hmac L out inb
      = .returns (with_data c inb, tag_of L c inb ++ out.drop md.size) md.size := by
  rw [hmac_eval L hk, if_neg (by omega), int_cast_of_lt hi,
    mem_read_at inb [] inb [] 0 _ (by simp) (by simp) rfl]

theorem hmac_throws_iff (L : Crypto) {c : HMACContext} {md : EVP_MD} (hk : Keyed c md)
    (out inb : List Byte) :
    (∃ s, c.hmac L out inb = .throws s .digest_output_buffer) ↔ out.length < md.size := by
  rw [hmac_eval L hk]
  by_cases hlt : out.length < md.size
  · simp [hlt]
  · simp only [hlt, ite_false, iff_false, not_exists]
    intro s
    cases mem_read inb 0 (int_cast inb.length) with
    | none => simp
    | some bytes => simp

theorem SameKeying.trans {a b c : HMACContext} (h1 : SameKeying a b) (h2 : SameKeying b c) :
    SameKeying a c := by
  obtain ⟨p1, p2, p3, p4, p5⟩ := h1
  obtain ⟨q1, q2, q3, q4, q5⟩ := h2
  exact ⟨q1.trans p1, q2.trans p2, q3.trans p3, q4.trans p4, q5.trans p5⟩

theorem run_op_frame {L : Crypto} {c c1 : HMACContext} {op : TagOp}
    (h : run_op L c op = some c1) : SameKeying c c1 := by
  cases op with
  | hmac out inb =>
    simp only [run_op, Option.map_eq_some'] at h
    obtain ⟨⟨s, o⟩, hs, he⟩ := h
    cases he
    exact hmac_frame hs
  | hmac2_gen off out_size inb =>
    simp only [run_op, Option.map_eq_some'] at h
    obtain ⟨⟨s, o⟩, hs, he⟩ := h
    cases he
    exact hmac2_gen_frame hs
  | hmac2_cmp off out_size inb =>
    exact hmac2_cmp_frame h

theorem run_ops_frame {L : Crypto} {ops : List TagOp} :
    ∀ {c c1 : HMACContext}, run_ops L c ops = some c1 → SameKeying c c1 := by
  induction ops with
  | nil =>
    intro c c1 h
    simp only [run_ops, Option.some.injEq] at h
    rw [← h]; exact SameKeying.refl c
  | cons op ops ih =>
    intro c c1 h
    simp only [run_ops] at h
    cases hop : run_op L c op with
    | none => rw [hop] at h; cases h
    | some c2 =>
      rw [hop] at h
      exact (run_op_frame hop).trans (ih h)

theorem hmac_observe_eq (L : Crypto) {c c1 : HMACContext} {md : EVP_MD} (hk : Keyed c md)
    (hk1 : Keyed c1 md) (hkey : c1.key_ = c.key_) (out inb : List Byte) :
    (c1.hmac L out inb).observe = (c.hmac L out inb).observe := by
  have ht : ∀ msg, tag_of L c1 msg = tag_of L c msg := by
    intro msg
    rw [keyed_tag_of L hk, keyed_tag_of L hk1, hkey]
  rw [hmac_eval L hk, hmac_eval L hk1]
  by_cases hlt : out.length < md.size
  · simp [hlt, Outcome.observe]
  · simp only [hlt, ite_false]
    cases mem_read inb 0 (int_cast inb.length) with
    | none => rfl
    | some bytes => simp [Outcome.observe, ht]

theorem keyed_unique {c c1 : HMACContext} {md md1 : EVP_MD} (hk : Keyed c md)
    (hk1 : Keyed c1 md1) (hd : c1.digest_ = c.digest_) : md1 = md := by
  have h1 := hk1.1
  rw [hd, hk.1] at h1
  exact (Option.some.inj h1).symm

theorem hmac_wrapped (L : Crypto) {c : HMACContext} {md : EVP_MD} (hk : Keyed c md)
    (out inb : List Byte) (ho : md.size ≤ out.length) (hi : int_cast inb.length = 0) :
    c.hmac L out inb
      = .returns (with_data c [], tag_of L c [] ++ out.drop md.size) md.size := by
  rw [hmac_eval L hk, if_neg (by omega), hi, mem_read_zero]

theorem int_cast_len_4g : int_cast pre_4g.length = 0 := by
  rw [pre_4g_length]
  unfold int_cast
  split <;> omega

theorem hmac_twice (L : Crypto) {c : HMACContext} {md : EVP_MD} (hk : Keyed c md)
    (out inb : List Byte) (c2 : HMACContext) (out2 : List Byte) (n : Nat)
    (h : c.hmac L out inb = .returns (c2, out2) n) (out3 : List Byte) (h3 : n ≤ out3.length) :
    ∃ c3 out4, c2.hmac L out3 inb = .returns (c3, out4) n ∧ out4.take n = out2.take n := by
  rw [hmac_eval L hk] at h
  by_cases hlt : out.length < md.size
  · simp [hlt] at h
  · simp only [hlt, ite_false] at h
    cases hm : mem_read inb 0 (int_cast inb.length) with
    | none => rw [hm] at h; cases h
    | some bytes =>
      rw [hm] at h
      simp only [Outcome.returns.injEq, Prod.mk.injEq] at h
      obtain ⟨⟨hc2, ho2⟩, hn⟩ := h
      subst hc2; subst ho2; subst hn
      have hk2 : Keyed (with_data c bytes) md := with_data_keyed hk bytes
      have hl : (tag_of L c bytes).length = md.size := tag_of_length L hk bytes
      refine ⟨with_data (with_data c bytes) bytes,
        tag_of L c bytes ++ out3.drop md.size, ?_, ?_⟩
      · rw [hmac_eval L hk2, if_neg (by omega), hm]
        simp only [tag_of_with_data]
      · rw [List.take_left' hl, List.take_left' hl]

/-! ## C6: the member `hmac` -/

/-- C6 (amended): for every Ready context, `hmac(out, out_capacity, in, in_size)`
throws `digest_output_buffer` if and only if `out_capacity < output_size()`;
otherwise, for an input of fewer than 2^31 bytes, it returns exactly
`output_size()`, writes the HMAC of the whole input under the stored key into
the first `output_size()` bytes of `out`, and leaves the remaining bytes of
`out` unchanged. -/
theorem C6_hmac_contract (L : Crypto) (c : HMACContext) (out inb : List Byte) (n : Nat)
    (hr : Reachable L c) (hd : c.defined = true) (hsz : c.output_size = .returns c n) :
    ((∃ s, c.hmac L out inb = .throws s .digest_output_buffer) ↔ out.length < n) ∧
    (out.length < n → c.hmac L out inb = .throws (c, out) .digest_output_buffer) ∧
    (tag_of L c inb).length = n ∧
    (n ≤ out.length → inb.length < 2 ^ 31 →
      ∃ c1, c.hmac L out inb = .returns (c1, tag_of L c inb ++ out.drop n) n) := by
  obtain ⟨md, hk⟩ := reachable_keyed hr hd
  have hn : n = md.size := output_size_eq hk hsz
  subst hn
  refine ⟨hmac_throws_iff L hk out inb, ?_, tag_of_length L hk inb, ?_⟩
  · intro hlt
    rw [hmac_eval L hk, if_pos hlt]
  · intro ho hi
    exact ⟨_, hmac_small L hk out inb ho hi⟩

/-- A 32 byte output buffer and the 48 byte input: `hmac` returns 32 and the
buffer holds the tag. -/
theorem C6_hmac_contract_witness :
    Reachable sumCrypto ctx32 ∧ ctx32.defined = true ∧
    ctx32.output_size = .returns ctx32 32 ∧ 32 ≤ slot0.length ∧ buf48.length < 2 ^ 31 ∧
    ((∃ s, ctx32.hmac sumCrypto slot0 buf48 = .throws s .digest_output_buffer)
      ↔ slot0.length < 32) ∧
    (tag_of sumCrypto ctx32 buf48).length = 32 ∧
    ∃ c1, ctx32.hmac sumCrypto slot0 buf48
      = .returns (c1, tag_of sumCrypto ctx32 buf48 ++ slot0.drop 32) 32 := by
  have h := C6_hmac_contract sumCrypto ctx32 slot0 buf48 32 reachable_ctx32 rfl rfl
  exact ⟨reachable_ctx32, rfl, rfl, by decide, by decide, h.1, h.2.2.1,
    h.2.2.2 (by decide) (by decide)⟩

/-- C6 as stated fails on an input of 2^32 bytes: `int(in_size)` is 0, so the
tag written is the tag of the empty input and not the tag of the whole input. -/
theorem C6_counterexample :
    Reachable sumCrypto ctx32 ∧ ctx32.defined = true ∧
    pre_4g.length = 4294967296 ∧ ctx32.output_size = .returns ctx32 32 ∧
    ¬ slot0.length < 32 ∧
    ctx32.hmac sumCrypto slot0 pre_4g
      = .returns (with_data ctx32 [], tag_of sumCrypto ctx32 [] ++ slot0.drop 32) 32 ∧
    tag_of sumCrypto ctx32 [] ≠ tag_of sumCrypto ctx32 pre_4g := by
  have hne := sum_tag_pre_ne pre_4g [] 4294967296 rfl (by decide)
  rw [List.append_nil] at hne
  exact ⟨reachable_ctx32, rfl, pre_4g_length, rfl, by decide,
    hmac_wrapped sumCrypto keyed_ctx32 slot0 pre_4g (by decide) int_cast_len_4g, hne⟩

/-! ## C7: history independence -/

/-- C7: for every Ready context, every history of `hmac`, `hmac2_gen` and
`hmac2_cmp` calls (returning or throwing) leaves the context Ready with the
same algorithm and key, and `hmac` after the history gives what it gives
before it (same bytes in `out`, same return value or exception); any two Ready
contexts with the same stored algorithm and key give the same result on the
same arguments; and a second `hmac` call on the same input right after a first
one returns the same length and the same tag bytes. -/
theorem C7_history_independent (L : Crypto) (c c1 : HMACContext) (ops : List TagOp)
    (out inb : List Byte) (hr : Reachable L c) (hd : c.defined = true)
    (hrun : run_ops L c ops = some c1) :
    (c1.defined = true ∧ c1.digest_ = c.digest_ ∧ c1.key_ = c.key_) ∧
    (c1.hmac L out inb).observe = (c.hmac L out inb).observe ∧
    (∀ c2 : HMACContext, Reachable L c2 → c2.defined = true → c2.digest_ = c.digest_ →
      c2.key_ = c.key_ → (c2.hmac L out inb).observe = (c.hmac L out inb).observe) ∧
    (∀ (c2 : HMACContext) (out2 : List Byte) (n : Nat),
      c.hmac L out inb = .returns (c2, out2) n →
      ∀ out3 : List Byte, n ≤ out3.length →
        ∃ c3 out4, c2.hmac L out3 inb = .returns (c3, out4) n ∧
          out4.take n = out2.take n) := by
  obtain ⟨md, hk⟩ := reachable_keyed hr hd
  have hs := run_ops_frame hrun
  have hk1 : Keyed c1 md := hs.keyed hk
  refine ⟨⟨hk1.2.1, hs.1, hs.2.1⟩, hmac_observe_eq L hk hk1 hs.2.1 out inb, ?_, ?_⟩
  · intro c2 hr2 hd2 hdig hkey
    obtain ⟨md2, hk2⟩ := reachable_keyed hr2 hd2
    have hmd : md2 = md := keyed_unique hk hk2 hdig
    subst hmd
    exact hmac_observe_eq L hk hk2 hkey out inb
  · intro c2 out2 n h out3 h3
    exact hmac_twice L hk out inb c2 out2 n h out3 h3

theorem run_history3 : run_ops sumCrypto ctx32 history3 = some ctx32_after := by
  decide

/-- The context `ctx32` before and after a history of three calls. -/
theorem C7_history_independent_witness :
    Reachable sumCrypto ctx32 ∧ ctx32.defined = true ∧
    run_ops sumCrypto ctx32 history3 = some ctx32_after ∧
    ((ctx32_after.defined = true ∧ ctx32_after.digest_ = ctx32.digest_ ∧
      ctx32_after.key_ = ctx32.key_) ∧
    (ctx32_after.hmac sumCrypto slot0 buf48).observe
      = (ctx32.hmac sumCrypto slot0 buf48).observe ∧
    (∀ c2 : HMACContext, Reachable sumCrypto c2 → c2.defined = true →
      c2.digest_ = ctx32.digest_ → c2.key_ = ctx32.key_ →
      (c2.hmac sumCrypto slot0 buf48).observe = (ctx32.hmac sumCrypto slot0 buf48).observe) ∧
    (∀ (c2 : HMACContext) (out2 : List Byte) (n : Nat),
      ctx32.hmac sumCrypto slot0 buf48 = .returns (c2, out2) n →
      ∀ out3 : List Byte, n ≤ out3.length →
        ∃ c3 out4, c2.hmac sumCrypto out3 buf48 = .returns (c3, out4) n ∧
          out4.take n = out2.take n)) :=
  ⟨reachable_ctx32, rfl, run_history3,
    C7_history_independent sumCrypto ctx32 ctx32_after history3 slot0 buf48
      reachable_ctx32 rfl run_history3⟩

/-! ## C8: `init` with too short a key -/

/-- C8: for every defined algorithm and every key with
`key.size() < algorithm.size()`, `init` throws
`digest_init_insufficient_key_material` and leaves the context Uninitialized
(`defined()` is false), whatever the context was before, Ready included; the
engine is the erased one and is not initialized. -/
theorem C8_init_short_key (c : HMACContext) (d : Digest) (k : StaticKey) (n : Nat)
    (hd : d.defined = true) (hn : d.size = .ok n) (hk : k.length < n) :
    ∃ c1, c.init d k = .throws c1 .digest_init_insufficient_key_material ∧
      c1.defined = false ∧ c1.ctx = c.ctx.erase ∧ c1.ctx.initialized = false := by
  cases hm : d.digest_ with
  | none => simp [Digest.defined, hm] at hd
  | some md =>
    have hnm : n = md.size := by
      simp only [Digest.size, hm, Except.ok.injEq] at hn
      exact hn.symm
    subst hnm
    refine ⟨_, init_of_short_key c d k md hm hk, ?_, rfl, ?_⟩
    · exact erase_initialized c.ctx
    · exact erase_initialized c.ctx

/-- A Ready context re-initialised with a 16 byte key for a 32 byte digest. -/
theorem C8_init_short_key_witness :
    (⟨some sum32⟩ : Digest).defined = true ∧ (⟨some sum32⟩ : Digest).size = .ok 32 ∧
    key16.length < 32 ∧ ctx32.defined = true ∧
    ∃ c1, ctx32.init ⟨some sum32⟩ key16 = .throws c1 .digest_init_insufficient_key_material ∧
      c1.defined = false ∧ c1.ctx = ctx32.ctx.erase ∧ c1.ctx.initialized = false :=
  ⟨rfl, rfl, by decide, rfl, C8_init_short_key ctx32 ⟨some sum32⟩ key16 32 rfl rfl (by decide)⟩

/-! ## C9: tag operations on an Uninitialized context -/

theorem call_of_uninitialized {c : HMACContext} (hd : c.defined = false) :
    c.ctx.call = .error .hmac_uninitialized := by
  unfold HMACContext.defined HMAC_CTX_wrapper.is_initialized at hd
  unfold HMAC_CTX_wrapper.call
  simp [hd]

theorem hmac2_pre_uninitialized {c : HMACContext} (hd : c.defined = false) (off : Int)
    (out_size : Nat) (inb : List Byte)
    (hr : HMACContext.range_rejects off out_size inb.length = false) :
    c.hmac2_pre off out_size inb = .throws c .hmac_uninitialized := by
  unfold HMACContext.hmac2_pre
  simp [hr, call_of_uninitialized hd]

/-- C9 (amended): for every context with `defined() == false` and every choice
of arguments, `output_size` and `hmac` throw `hmac_uninitialized`; `hmac2_gen`
and `hmac2_cmp` throw `hmac_uninitialized` when the range check of `hmac2_pre`
passes, in particular whenever the slot lies inside the buffer, and throw
`digest_output_buffer` when the range check rejects. Context and buffers are
left unchanged. -/
theorem C9_uninitialized (L : Crypto) (c : HMACContext) (hd : c.defined = false) :
    c.output_size = .throws c .hmac_uninitialized ∧
    (∀ out inb : List Byte, c.hmac L out inb = .throws (c, out) .hmac_uninitialized) ∧
    (∀ (off : Int) (out_size : Nat) (inb : List Byte),
      (HMACContext.range_rejects off out_size inb.length = false →
        c.hmac2_gen L off out_size inb = .throws (c, inb) .hmac_uninitialized ∧
        c.hmac2_cmp L off out_size inb = .throws c .hmac_uninitialized) ∧
      (0 ≤ off → off + out_size ≤ inb.length →
        c.hmac2_gen L off out_size inb = .throws (c, inb) .hmac_uninitialized ∧
        c.hmac2_cmp L off out_size inb = .throws c .hmac_uninitialized) ∧
      (HMACContext.range_rejects off out_size inb.length = true →
        c.hmac2_gen L off out_size inb = .throws (c, inb) .digest_output_buffer ∧
        c.hmac2_cmp L off out_size inb = .throws c .digest_output_buffer)) := by
  have hc := call_of_uninitialized hd
  have hpass : ∀ (off : Int) (out_size : Nat) (inb : List Byte),
      HMACContext.range_rejects off out_size inb.length = false →
        c.hmac2_gen L off out_size inb = .throws (c, inb) .hmac_uninitialized ∧
        c.hmac2_cmp L off out_size inb = .throws c .hmac_uninitialized := by
    intro off out_size inb hr
    have hp := hmac2_pre_uninitialized hd off out_size inb hr
    constructor
    · unfold HMACContext.hmac2_gen; rw [hp]
    · unfold HMACContext.hmac2_cmp; rw [hp]
  refine ⟨?_, ?_, ?_⟩
  · unfold HMACContext.output_size
    simp [hc]
  · intro out inb
    unfold HMACContext.hmac
    simp [hc]
  · intro off out_size inb
    refine ⟨hpass off out_size inb, ?_, ?_⟩
    · intro h0 h1
      exact hpass off out_size inb (range_accepts_of_inside off out_size inb.length h0 h1)
    · intro hr
      have hp := hmac2_pre_rejects c off out_size inb hr
      constructor
      · unfold HMACContext.hmac2_gen; rw [hp]
      · unfold HMACContext.hmac2_cmp; rw [hp]

/-- The default-constructed context, with the 32 byte slot at offset 10 of
the 48 byte buffer. -/
theorem C9_uninitialized_witness :
    HMACContext.mk_default.defined = false ∧
    HMACContext.range_rejects 10 32 buf48.length = false ∧
    HMACContext.mk_default.output_size
      = .throws HMACContext.mk_default .hmac_uninitialized ∧
    HMACContext.mk_default.hmac sumCrypto slot0 buf48
      = .throws (HMACContext.mk_default, slot0) .hmac_uninitialized ∧
    HMACContext.mk_default.hmac2_gen sumCrypto 10 32 buf48
      = .throws (HMACContext.mk_default, buf48) .hmac_uninitialized ∧
    HMACContext.mk_default.hmac2_cmp sumCrypto 10 32 buf48
      = .throws HMACContext.mk_default .hmac_uninitialized := by
  have h := C9_uninitialized sumCrypto HMACContext.mk_default rfl
  have hr : HMACContext.range_rejects 10 32 buf48.length = false := by decide
  exact ⟨rfl, hr, h.1, h.2.1 slot0 buf48, ((h.2.2 10 32 buf48).1 hr).1,
    ((h.2.2 10 32 buf48).1 hr).2⟩

/-- C9 as stated fails on the default-constructed context with a 32 byte slot
at offset 40 of the 48 byte buffer: the range check comes first, and
`hmac2_gen` and `hmac2_cmp` throw `digest_output_buffer`. -/
theorem C9_counterexample :
    HMACContext.mk_default.defined = false ∧
    HMACContext.mk_default.hmac2_gen sumCrypto 40 32 buf48
      = .throws (HMACContext.mk_default, buf48) .digest_output_buffer ∧
    HMACContext.mk_default.hmac2_cmp sumCrypto 40 32 buf48
      = .throws HMACContext.mk_default .digest_output_buffer := by
  decide

/-! ## C10: `init` with an undefined algorithm -/

/-- C10: for every key and every prior context state, `init` with an undefined
algorithm returns and leaves the context Uninitialized (`defined()` is false),
with the stored algorithm and key replaced by the given ones. -/
theorem C10_init_undefined (c : HMACContext) (d : Digest) (k : StaticKey)
    (hd : d.defined = false) :
    ∃ c1, c.init d k = .returns c1 () ∧ c1.defined = false ∧ c1.digest_ = d ∧
      c1.key_ = k :=
  ⟨_, init_of_undefined c d k hd, erase_initialized c.ctx, rfl, rfl⟩

/-- A Ready context re-initialised with `Digest()` and the empty key. -/
theorem C10_init_undefined_witness :
    Digest.mk_default.defined = false ∧ ctx32.defined = true ∧
    ∃ c1, ctx32.init Digest.mk_default [] = .returns c1 () ∧ c1.defined = false ∧
      c1.digest_ = Digest.mk_default ∧ c1.key_ = [] :=
  ⟨rfl, rfl, C10_init_undefined ctx32 Digest.mk_default [] rfl⟩

theorem reachable_run_op {L : Crypto} {c c1 : HMACContext} {op : TagOp}
    (hr : Reachable L c) (h : run_op L c op = some c1) : Reachable L c1 := by
  cases op with
  | hmac out inb =>
    simp only [run_op, Option.map_eq_some'] at h
    obtain ⟨⟨s, o⟩, hs, he⟩ := h
    cases he
    exact Reachable.hmac c out inb s o hr hs
  | hmac2_gen off out_size inb =>
    simp only [run_op, Option.map_eq_some'] at h
    obtain ⟨⟨s, o⟩, hs, he⟩ := h
    cases he
    exact Reachable.hmac2_gen c off out_size inb s o hr hs
  | hmac2_cmp off out_size inb =>
    exact Reachable.hmac2_cmp c off out_size inb c1 hr h

theorem reachable_run_ops {L : Crypto} {ops : List TagOp} :
    ∀ {c c1 : HMACContext}, Reachable L c → run_ops L c ops = some c1 → Reachable L c1 := by
  induction ops with
  | nil =>
    intro c c1 hr h
    simp only [run_ops, Option.some.injEq] at h
    rw [← h]; exact hr
  | cons op ops ih =>
    intro c c1 hr h
    simp only [run_ops] at h
    cases hop : run_op L c op with
    | none => rw [hop] at h; cases h
    | some c2 =>
      rw [hop] at h
      exact ih (reachable_run_op hr hop) h

theorem reachable_ctx32_after : Reachable sumCrypto ctx32_after :=
  reachable_run_ops reachable_ctx32 run_history3

/-! ## C11: the state invariant -/

/-- C11: in every context state reachable from default construction by any
sequence of `init` (returning or throwing), copy construction, assignment,
`hmac`, `hmac2_gen` and `hmac2_cmp`, `defined() == true` implies that the
stored algorithm is defined and that the stored key is at least as long as the
algorithm's output size. -/
theorem C11_state_invariant (L : Crypto) (c : HMACContext) (hr : Reachable L c)
    (hd : c.defined = true) :
    c.digest_.defined = true ∧ ∃ n, c.digest_.size = .ok n ∧ n ≤ c.key_.length := by
  obtain ⟨md, hk⟩ := reachable_keyed hr hd
  refine ⟨?_, md.size, ?_, hk.2.2.2.2⟩
  · simp [Digest.defined, hk.1]
  · simp [Digest.size, hk.1]

/-- The context `ctx32` after `history3`, reached by construction and three
tag operations. -/
theorem C11_state_invariant_witness :
    Reachable sumCrypto ctx32_after ∧ ctx32_after.defined = true ∧
    ctx32_after.digest_.defined = true ∧
    ∃ n, ctx32_after.digest_.size = .ok n ∧ n ≤ ctx32_after.key_.length :=
  ⟨reachable_ctx32_after, rfl,
    C11_state_invariant sumCrypto ctx32_after reachable_ctx32_after rfl⟩

/-! ## C12: `output_size` after `init` -/

/-- C12: for every defined algorithm and every key with
`key.size() >= algorithm.size()`, `init(algorithm, key)` returns, the context
is Ready afterwards and `output_size()` returns `algorithm.size()`. -/
theorem C12_output_size_after_init (c : HMACContext) (d : Digest) (k : StaticKey) (n : Nat)
    (hd : d.defined = true) (hn : d.size = .ok n) (hk : n ≤ k.length) :
    ∃ c1, c.init d k = .returns c1 () ∧ c1.defined = true ∧
      c1.output_size = .returns c1 n := by
  cases hm : d.digest_ with
  | none => simp [Digest.defined, hm] at hd
  | some md =>
    have hnm : n = md.size := by
      simp only [Digest.size, hm, Except.ok.injEq] at hn
      exact hn.symm
    subst hnm
    refine ⟨_, init_of_long_key c d k md hm hk, rfl, ?_⟩
    exact keyed_output_size ⟨hm, rfl, rfl, rfl, hk⟩

/-- The default-constructed context initialised with `sum32` and `key32`. -/
theorem C12_output_size_after_init_witness :
    (⟨some sum32⟩ : Digest).defined = true ∧ (⟨some sum32⟩ : Digest).size = .ok 32 ∧
    32 ≤ key32.length ∧
    ∃ c1, HMACContext.mk_default.init ⟨some sum32⟩ key32 = .returns c1 () ∧
      c1.defined = true ∧ c1.output_size = .returns c1 32 :=
  ⟨rfl, rfl, by decide,
    C12_output_size_after_init HMACContext.mk_default ⟨some sum32⟩ key32 32 rfl rfl
      (by decide)⟩

/-! ## C17: class `Digest` -/

/-- C17: `defined()` is a total query; for every `Digest`, `name()` and
`size()` both return when `defined()` is true and both throw
`digest_undefined` when it is false; the default-constructed `Digest` is
undefined; construction by name throws `digest_not_found` exactly when the name
does not resolve, and yields a defined `Digest` otherwise. -/
theorem C17_digest_defined_or_undefined (L : Crypto) (d : Digest) (name : String) :
    (d.defined = true → ∃ s n, d.name = .ok s ∧ d.size = .ok n) ∧
    (d.defined = false →
      d.name = .error .digest_undefined ∧ d.size = .error .digest_undefined) ∧
    Digest.mk_default.defined = false ∧
    (Digest.mk_name L name = .error .digest_not_found ↔
      L.EVP_get_digestbyname name = none) ∧
    (∀ e, Digest.mk_name L name = .error e → e = .digest_not_found) ∧
    (∀ d1, Digest.mk_name L name = .ok d1 → d1.defined = true) := by
  refine ⟨?_, ?_, rfl, ?_, ?_, ?_⟩
  · intro h
    cases hm : d.digest_ with
    | none => simp [Digest.defined, hm] at h
    | some md => exact ⟨md.name, md.size, by simp [Digest.name, hm], by simp [Digest.size, hm]⟩
  · intro h
    cases hm : d.digest_ with
    | none => exact ⟨by simp [Digest.name, hm], by simp [Digest.size, hm]⟩
    | some md => simp [Digest.defined, hm] at h
  · unfold Digest.mk_name
    cases L.EVP_get_digestbyname name with
    | none => simp
    | some md => simp
  · intro e
    unfold Digest.mk_name
    cases L.EVP_get_digestbyname name with
    | none => intro h; cases h; rfl
    | some md => intro h; cases h
  · intro d1
    unfold Digest.mk_name
    cases L.EVP_get_digestbyname name with
    | none => intro h; cases h
    | some md => intro h; cases h; rfl

/-- The digest found under the name "SUM32", the default digest, and a name
that does not resolve. -/
theorem C17_digest_defined_or_undefined_witness :
    (∃ d1, Digest.mk_name sumCrypto "SUM32" = .ok d1 ∧ d1.defined = true ∧
      d1.name = .ok "SUM32" ∧ d1.size = .ok 32) ∧
    Digest.mk_default.defined = false ∧
    Digest.mk_default.name = .error .digest_undefined ∧
    Digest.mk_default.size = .error .digest_undefined ∧
    Digest.mk_name sumCrypto "SHA256" = .error .digest_not_found := by
  have h := C17_digest_defined_or_undefined sumCrypto Digest.mk_default "SHA256"
  exact ⟨⟨⟨some sum32⟩, rfl, rfl, rfl, rfl⟩, h.2.2.1, (h.2.1 rfl).1, (h.2.1 rfl).2,
    h.2.2.2.1.mpr rfl⟩

/-! ## C19: a failed `init` is not atomic -/

theorem init_throws_inv {c c1 : HMACContext} {d : Digest} {k : StaticKey} {e : Exn}
    (h : c.init d k = .throws c1 e) :
    e = .digest_init_insufficient_key_material ∧
      c1 = { digest_ := d, key_ := k, ctx := c.ctx.erase } ∧
      ∃ md, d.digest_ = some md ∧ k.length < md.size := by
  cases hm : d.digest_ with
  | none =>
    have hu : d.defined = false := by simp [Digest.defined, hm]
    rw [init_of_undefined c d k hu] at h
    cases h
  | some md =>
    by_cases hk : k.length < md.size
    · rw [init_of_short_key c d k md hm hk] at h
      cases h
      exact ⟨rfl, rfl, md, rfl, hk⟩
    · rw [init_of_long_key c d k md hm (Nat.not_lt.mp hk)] at h
      cases h

/-- C19: after `init(algorithm, key)` throws
`digest_init_insufficient_key_material`, the context is Uninitialized and its
stored algorithm and key are the rejected ones, so copy-constructing from it,
or assigning it to another context, throws
`digest_init_insufficient_key_material` as well; copying or assigning from a
context whose algorithm is undefined always returns and yields an
Uninitialized context. -/
theorem C19_failed_init_not_atomic (c c1 : HMACContext) (d : Digest) (k : StaticKey)
    (h : c.init d k = .throws c1 .digest_init_insufficient_key_material) :
    (c1.digest_ = d ∧ c1.key_ = k ∧ c1.defined = false) ∧
    (∃ s, HMACContext.mk_copy c1 = .throws s .digest_init_insufficient_key_material) ∧
    (∀ t : HMACContext,
      ∃ s, t.assign c1 false = .throws s .digest_init_insufficient_key_material) ∧
    (∀ r : HMACContext, r.digest_.defined = false →
      (∃ c2, HMACContext.mk_copy r = .returns c2 () ∧ c2.defined = false) ∧
      (∀ t : HMACContext, ∃ c3, t.assign r false = .returns c3 () ∧ c3.defined = false)) := by
  obtain ⟨_, hc1, md, hm, hk⟩ := init_throws_inv h
  subst hc1
  refine ⟨⟨rfl, rfl, erase_initialized c.ctx⟩, ?_, ?_, ?_⟩
  · exact ⟨_, init_of_short_key HMACContext.mk_default d k md hm hk⟩
  · intro t
    exact ⟨_, init_of_short_key t d k md hm hk⟩
  · intro r hr
    refine ⟨⟨_, init_of_undefined HMACContext.mk_default r.digest_ r.key_ hr,
      erase_initialized _⟩, ?_⟩
    intro t
    exact ⟨_, init_of_undefined t r.digest_ r.key_ hr, erase_initialized _⟩

/-- The Ready context `ctx32` after `init` with the 16 byte key was rejected:
it now stores that key, and copies of it are rejected too. -/
theorem C19_failed_init_not_atomic_witness :
    ctx32.init ⟨some sum32⟩ key16
      = .throws { digest_ := ⟨some sum32⟩, key_ := key16, ctx := ctx32.ctx.erase }
          .digest_init_insufficient_key_material ∧
    ctx32.key_ = key32 ∧ key16 ≠ key32 ∧
    (∃ s, HMACContext.mk_copy
        { digest_ := ⟨some sum32⟩, key_ := key16, ctx := ctx32.ctx.erase }
      = .throws s .digest_init_insufficient_key_material) ∧
    (∃ c2, HMACContext.mk_copy HMACContext.mk_default = .returns c2 () ∧
      c2.defined = false) := by
  have h0 : ctx32.init ⟨some sum32⟩ key16
      = .throws { digest_ := ⟨some sum32⟩, key_ := key16, ctx := ctx32.ctx.erase }
          .digest_init_insufficient_key_material := by decide
  have h := C19_failed_init_not_atomic ctx32 _ ⟨some sum32⟩ key16 h0
  exact ⟨h0, rfl, by decide, h.2.1, (h.2.2.2 HMACContext.mk_default rfl).1⟩

/-! ## C18: split feeding equals one-shot hashing -/

/-- C18: for every Ready context and every buffer `pre ++ slot ++ post` of
fewer than 2^31 bytes with `|slot| = output_size()`, the tag that `hmac2_gen`
writes into the slot is the tag that `hmac` writes for the single contiguous
input `pre ++ post`; `pre`, `post` or both may be empty. -/
theorem C18_split_equals_one_shot (L : Crypto) (c : HMACContext)
    (pre slot post out : List Byte) (hr : Reachable L c) (hd : c.defined = true)
    (hsz : c.output_size = .returns c slot.length)
    (hlen : (pre ++ slot ++ post).length < 2 ^ 31) (hout : slot.length ≤ out.length) :
    ∃ (c1 c2 : HMACContext) (T : List Byte), T.length = slot.length ∧
      c.hmac2_gen L pre.length slot.length (pre ++ slot ++ post)
        = .returns (c1, pre ++ T ++ post) () ∧
      c.hmac L out (pre ++ post) = .returns (c2, T ++ out.drop slot.length) slot.length := by
  obtain ⟨md, hk⟩ := reachable_keyed hr hd
  have hmd : slot.length = md.size := output_size_eq hk hsz
  have hl : (pre ++ post).length < 2 ^ 31 := by
    simp only [List.length_append] at hlen ⊢
    omega
  have hh := hmac_small L hk out (pre ++ post) (by omega) hl
  rw [← hmd] at hh
  exact ⟨with_data c (pre ++ post), with_data c (pre ++ post), tag_of L c (pre ++ post),
    by rw [tag_of_length L hk, hmd], hmac2_gen_split L hk pre slot post hmd hlen, hh⟩

/-- The 48 byte buffer with the slot at offset 10, and the buffer that is
nothing but the slot (`in_size == out_size`, the tag of the empty message). -/
theorem C18_split_equals_one_shot_witness :
    Reachable sumCrypto ctx32 ∧ ctx32.defined = true ∧
    ctx32.output_size = .returns ctx32 slot0.length ∧
    (pre10 ++ slot0 ++ post6).length < 2 ^ 31 ∧ slot0.length ≤ slot0.length ∧
    (∃ (c1 c2 : HMACContext) (T : List Byte), T.length = slot0.length ∧
      ctx32.hmac2_gen sumCrypto pre10.length slot0.length (pre10 ++ slot0 ++ post6)
        = .returns (c1, pre10 ++ T ++ post6) () ∧
      ctx32.hmac sumCrypto slot0 (pre10 ++ post6)
        = .returns (c2, T ++ slot0.drop slot0.length) slot0.length) ∧
    (∃ (c1 c2 : HMACContext) (T : List Byte), T.length = slot0.length ∧
      ctx32.hmac2_gen sumCrypto ([] : List Byte).length slot0.length ([] ++ slot0 ++ [])
        = .returns (c1, [] ++ T ++ []) () ∧
      ctx32.hmac sumCrypto slot0 ([] ++ [])
        = .returns (c2, T ++ slot0.drop slot0.length) slot0.length) :=
  ⟨reachable_ctx32, rfl, rfl, by decide, by decide,
    C18_split_equals_one_shot sumCrypto ctx32 pre10 slot0 post6 slot0 reachable_ctx32 rfl rfl
      (by decide) (by decide),
    C18_split_equals_one_shot sumCrypto ctx32 [] slot0 [] slot0 reachable_ctx32 rfl rfl
      (by decide) (by decide)⟩

/-! ## `hmac2_gen` and `hmac2_cmp` on a keyed context, all cases -/

theorem hmac2_gen_eval (L : Crypto) {c : HMACContext} {md : EVP_MD} (hk : Keyed c md)
    (off : Int) (out_size : Nat) (inb : List Byte) :
    c.hmac2_gen L off out_size inb =
      if HMACContext.range_rejects off out_size inb.length = true then
        .throws (c, inb) .digest_output_buffer
      else if out_size ≠ md.size then .throws (c, inb) .digest_output_buffer
      else
        match mem_read inb 0 (int_cast (HMACContext.pre_size off)) with
        | none => .undefined
        | some p =>
          match mem_read inb (off + out_size)
              (int_cast (HMACContext.post_size off out_size inb.length)) with
          | none => .undefined
          | some q =>
            match mem_write inb off (tag_of L c (p ++ q)) with
            | none => .undefined
            | some in1 => .returns (with_data c (p ++ q), in1) () := by
  unfold HMACContext.hmac2_gen
  by_cases hr : HMACContext.range_rejects off out_size inb.length = true
  · rw [hmac2_pre_rejects c off out_size inb hr, if_pos hr]
  · have hr0 : HMACContext.range_rejects off out_size inb.length = false := by
      simpa using hr
    rw [if_neg hr]
    by_cases hs : out_size ≠ md.size
    · rw [hmac2_pre_size_mismatch hk off out_size inb hr0 hs, if_pos hs]
    · rw [if_neg hs]
      have hs1 : out_size = md.size := not_not.mp hs
      rw [hmac2_pre_eval hk off out_size inb hr0 hs1]
      cases mem_read inb 0 (int_cast (HMACContext.pre_size off)) with
      | none => rfl
      | some p =>
        cases mem_read inb (off + (out_size : Int))
            (int_cast (HMACContext.post_size off out_size inb.length)) with
        | none => rfl
        | some q => simp only [keyed_final L hk]

theorem hmac2_cmp_eval (L : Crypto) {c : HMACContext} {md : EVP_MD} (hk : Keyed c md)
    (off : Int) (out_size : Nat) (inb : List Byte) :
    c.hmac2_cmp L off out_size inb =
      if HMACContext.range_rejects off out_size inb.length = true then
        .throws c .digest_output_buffer
      else if out_size ≠ md.size then .throws c .digest_output_buffer
      else
        match mem_read inb 0 (int_cast (HMACContext.pre_size off)) with
        | none => .undefined
        | some p =>
          match mem_read inb (off + out_size)
              (int_cast (HMACContext.post_size off out_size inb.length)) with
          | none => .undefined
          | some q =>
            match mem_read inb off out_size with
            | none => .undefined
            | some slot =>
              .returns (with_data c (p ++ q))
                (decide (slot = (tag_of L c (p ++ q)).take out_size)) := by
  unfold HMACContext.hmac2_cmp
  by_cases hr : HMACContext.range_rejects off out_size inb.length = true
  · rw [hmac2_pre_rejects c off out_size inb hr, if_pos hr]
  · have hr0 : HMACContext.range_rejects off out_size inb.length = false := by
      simpa using hr
    rw [if_neg hr]
    by_cases hs : out_size ≠ md.size
    · rw [hmac2_pre_size_mismatch hk off out_size inb hr0 hs, if_pos hs]
    · rw [if_neg hs]
      have hs1 : out_size = md.size := not_not.mp hs
      rw [hmac2_pre_eval hk off out_size inb hr0 hs1]
      cases mem_read inb 0 (int_cast (HMACContext.pre_size off)) with
      | none => rfl
      | some p =>
        cases mem_read inb (off + (out_size : Int))
            (int_cast (HMACContext.post_size off out_size inb.length)) with
        | none => rfl
        | some q => simp only [keyed_final L hk]

/-! ## Contexts keyed alike -/

theorem tag_of_keyeq (L : Crypto) {c1 c2 : HMACContext} (h : KeyEq c1 c2) (msg : List Byte) :
    tag_of L c1 msg = tag_of L c2 msg := by
  obtain ⟨md, h1, h2, hk⟩ := h
  rw [keyed_tag_of L h1, keyed_tag_of L h2, hk]

theorem hmac_observe_keyeq (L : Crypto) {c1 c2 : HMACContext} (h : KeyEq c1 c2)
    (out inb : List Byte) :
    (c1.hmac L out inb).observe = (c2.hmac L out inb).observe := by
  have ht := tag_of_keyeq L h
  obtain ⟨md, h1, h2, _⟩ := h
  rw [hmac_eval L h1, hmac_eval L h2]
  by_cases hlt : out.length < md.size
  · simp [hlt, Outcome.observe]
  · simp only [hlt, ite_false]
    cases mem_read inb 0 (int_cast inb.length) with
    | none => rfl
    | some bytes => simp [Outcome.observe, ht]

theorem hmac2_gen_observe_keyeq (L : Crypto) {c1 c2 : HMACContext} (h : KeyEq c1 c2)
    (off : Int) (out_size : Nat) (inb : List Byte) :
    (c1.hmac2_gen L off out_size inb).observe = (c2.hmac2_gen L off out_size inb).observe := by
  have ht := tag_of_keyeq L h
  obtain ⟨md, h1, h2, _⟩ := h
  rw [hmac2_gen_eval L h1, hmac2_gen_eval L h2]
  by_cases hr : HMACContext.range_rejects off out_size inb.length = true
  · simp [hr, Outcome.observe]
  · simp only [hr, if_false]
    by_cases hs : out_size ≠ md.size
    · simp [hs, Outcome.observe]
    · simp only [hs, if_false]
      cases mem_read inb 0 (int_cast (HMACContext.pre_size off)) with
      | none => rfl
      | some p =>
        cases mem_read inb (off + (out_size : Int))
            (int_cast (HMACContext.post_size off out_size inb.length)) with
        | none => rfl
        | some q =>
          simp only [ht]
          cases mem_write inb off (tag_of L c2 (p ++ q)) with
          | none => rfl
          | some in1 => rfl

theorem hmac2_cmp_result_keyeq (L : Crypto) {c1 c2 : HMACContext} (h : KeyEq c1 c2)
    (off : Int) (out_size : Nat) (inb : List Byte) :
    (c1.hmac2_cmp L off out_size inb).result = (c2.hmac2_cmp L off out_size inb).result := by
  have ht := tag_of_keyeq L h
  obtain ⟨md, h1, h2, _⟩ := h
  rw [hmac2_cmp_eval L h1, hmac2_cmp_eval L h2]
  by_cases hr : HMACContext.range_rejects off out_size inb.length = true
  · simp [hr, Outcome.result]
  · simp only [hr, if_false]
    by_cases hs : out_size ≠ md.size
    · simp [hs, Outcome.result]
    · simp only [hs, if_false]
      cases mem_read inb 0 (int_cast (HMACContext.pre_size off)) with
      | none => rfl
      | some p =>
        cases mem_read inb (off + (out_size : Int))
            (int_cast (HMACContext.post_size off out_size inb.length)) with
        | none => rfl
        | some q =>
          simp only [ht]
          cases mem_read inb off out_size with
          | none => rfl
          | some slot => rfl

theorem observe_state_isSome {α : Type} {o1 o2 : Outcome (HMACContext × List Byte) α}
    (h : o1.observe = o2.observe) : o1.state?.isSome = o2.state?.isSome := by
  cases o1 <;> cases o2 <;> simp [Outcome.observe, Outcome.state?] at h ⊢

theorem result_state_isSome {σ α : Type} {o1 o2 : Outcome σ α}
    (h : o1.result = o2.result) : o1.state?.isSome = o2.state?.isSome := by
  cases o1 <;> cases o2 <;> simp [Outcome.result, Outcome.state?] at h ⊢

theorem KeyEq.frame {c1 c2 d1 d2 : HMACContext} (h : KeyEq c1 c2) (h1 : SameKeying c1 d1)
    (h2 : SameKeying c2 d2) : KeyEq d1 d2 := by
  obtain ⟨md, k1, k2, hk⟩ := h
  refine ⟨md, h1.keyed k1, h2.keyed k2, ?_⟩
  rw [h1.2.1, h2.2.1]
  exact hk

theorem run_op_keyeq {L : Crypto} {c1 c2 d1 : HMACContext} {op : TagOp} (h : KeyEq c1 c2)
    (h1 : run_op L c1 op = some d1) : ∃ d2, run_op L c2 op = some d2 ∧ KeyEq d1 d2 := by
  have hsome : (run_op L c2 op).isSome = true := by
    cases op with
    | hmac out inb =>
      have hs := observe_state_isSome (hmac_observe_keyeq L h out inb)
      simp only [run_op, Option.isSome_map'] at h1 ⊢
      rw [← hs]
      cases hx : (c1.hmac L out inb).state? with
      | none => rw [hx] at h1; cases h1
      | some x => rfl
    | hmac2_gen off out_size inb =>
      have hs := observe_state_isSome (hmac2_gen_observe_keyeq L h off out_size inb)
      simp only [run_op, Option.isSome_map'] at h1 ⊢
      rw [← hs]
      cases hx : (c1.hmac2_gen L off out_size inb).state? with
      | none => rw [hx] at h1; cases h1
      | some x => rfl
    | hmac2_cmp off out_size inb =>
      have hs := result_state_isSome (hmac2_cmp_result_keyeq L h off out_size inb)
      simp only [run_op] at h1 ⊢
      rw [← hs, h1]
      rfl
  obtain ⟨d2, hd2⟩ := Option.isSome_iff_exists.mp hsome
  exact ⟨d2, hd2, h.frame (run_op_frame h1) (run_op_frame hd2)⟩

theorem run_ops_keyeq {L : Crypto} {ops : List TagOp} :
    ∀ {c1 c2 d1 : HMACContext}, KeyEq c1 c2 → run_ops L c1 ops = some d1 →
      ∃ d2, run_ops L c2 ops = some d2 ∧ KeyEq d1 d2 := by
  induction ops with
  | nil =>
    intro c1 c2 d1 h h1
    simp only [run_ops, Option.some.injEq] at h1
    subst h1
    exact ⟨c2, rfl, h⟩
  | cons op ops ih =>
    intro c1 c2 d1 h h1
    simp only [run_ops] at h1
    cases hop : run_op L c1 op with
    | none => rw [hop] at h1; cases h1
    | some e1 =>
      rw [hop] at h1
      obtain ⟨e2, he2, hke⟩ := run_op_keyeq h hop
      obtain ⟨d2, hd2, hkd⟩ := ih hke h1
      refine ⟨d2, ?_, hkd⟩
      simp only [run_ops, he2]
      exact hd2

/-! ## C13: only the first `size` bytes of the key count -/

/-- C13: for every defined algorithm and any two keys of length at least
`algorithm.size()` that agree on their first `algorithm.size()` bytes, `init`
returns for both, and after any common history of tag operations the two
contexts give identical results (buffer contents, return value or exception)
for every `hmac`, `hmac2_gen` and `hmac2_cmp` call. -/
theorem C13_key_truncation (L : Crypto) (a b : HMACContext) (d : Digest)
    (k1 k2 : StaticKey) (n : Nat) (hd : d.defined = true) (hn : d.size = .ok n)
    (h1 : n ≤ k1.length) (h2 : n ≤ k2.length) (hk : k1.take n = k2.take n) :
    ∃ c1 c2, a.init d k1 = .returns c1 () ∧ b.init d k2 = .returns c2 () ∧
      ∀ (ops : List TagOp) (d1 : HMACContext), run_ops L c1 ops = some d1 →
        ∃ d2, run_ops L c2 ops = some d2 ∧
          (∀ out inb : List Byte,
            (d1.hmac L out inb).observe = (d2.hmac L out inb).observe) ∧
          (∀ (off : Int) (out_size : Nat) (inb : List Byte),
            (d1.hmac2_gen L off out_size inb).observe
              = (d2.hmac2_gen L off out_size inb).observe) ∧
          (∀ (off : Int) (out_size : Nat) (inb : List Byte),
            (d1.hmac2_cmp L off out_size inb).result
              = (d2.hmac2_cmp L off out_size inb).result) := by
  cases hm : d.digest_ with
  | none => simp [Digest.defined, hm] at hd
  | some md =>
    have hnm : n = md.size := by
      simp only [Digest.size, hm, Except.ok.injEq] at hn
      exact hn.symm
    subst hnm
    refine ⟨_, _, init_of_long_key a d k1 md hm h1, init_of_long_key b d k2 md hm h2, ?_⟩
    intro ops d1 hrun
    have hke : KeyEq
        { digest_ := d, key_ := k1,
          ctx := { ctx := { md := some md, key := k1.take md.size, data := [] },
                   initialized := true } }
        { digest_ := d, key_ := k2,
          ctx := { ctx := { md := some md, key := k2.take md.size, data := [] },
                   initialized := true } } :=
      ⟨md, ⟨hm, rfl, rfl, rfl, h1⟩, ⟨hm, rfl, rfl, rfl, h2⟩, hk⟩
    obtain ⟨d2, hd2, hkd⟩ := run_ops_keyeq hke hrun
    exact ⟨d2, hd2, hmac_observe_keyeq L hkd, hmac2_gen_observe_keyeq L hkd,
      hmac2_cmp_result_keyeq L hkd⟩

/-- The 32 byte key `key32` and the 34 byte key `key34`, which extends it. -/
theorem C13_key_truncation_witness :
    (⟨some sum32⟩ : Digest).defined = true ∧ (⟨some sum32⟩ : Digest).size = .ok 32 ∧
    32 ≤ key32.length ∧ 32 ≤ key34.length ∧ key32.take 32 = key34.take 32 ∧
    key32 ≠ key34 ∧
    ∃ c1 c2, HMACContext.mk_default.init ⟨some sum32⟩ key32 = .returns c1 () ∧
      HMACContext.mk_default.init ⟨some sum32⟩ key34 = .returns c2 () ∧
      ∀ (ops : List TagOp) (d1 : HMACContext), run_ops sumCrypto c1 ops = some d1 →
        ∃ d2, run_ops sumCrypto c2 ops = some d2 ∧
          (∀ out inb : List Byte,
            (d1.hmac sumCrypto out inb).observe = (d2.hmac sumCrypto out inb).observe) ∧
          (∀ (off : Int) (out_size : Nat) (inb : List Byte),
            (d1.hmac2_gen sumCrypto off out_size inb).observe
              = (d2.hmac2_gen sumCrypto off out_size inb).observe) ∧
          (∀ (off : Int) (out_size : Nat) (inb : List Byte),
            (d1.hmac2_cmp sumCrypto off out_size inb).result
              = (d2.hmac2_cmp sumCrypto off out_size inb).result) :=
  ⟨rfl, rfl, by decide, by decide, by decide, by decide,
    C13_key_truncation sumCrypto HMACContext.mk_default HMACContext.mk_default ⟨some sum32⟩
      key32 key34 32 rfl rfl (by decide) (by decide) (by decide)⟩

/-! ## C14: copy construction and assignment -/

theorem KeyEq.of_same_key {c1 c2 : HMACContext} {md : EVP_MD} (h1 : Keyed c1 md)
    (h2 : Keyed c2 md) (hk : c1.key_ = c2.key_) : KeyEq c1 c2 :=
  ⟨md, h1, h2, by rw [hk]⟩

/-- C14: copy-constructing or assigning a context from a Ready source returns
and yields the state of a fresh `init(source.algorithm, source.key)`, whatever
tag operations the source has run; the copy is Ready and gives the same
results as the source for every `hmac`, `hmac2_gen` and `hmac2_cmp` call; and
self-assignment leaves the context unchanged. -/
theorem C14_copy_semantics (L : Crypto) (r : HMACContext) (hr : Reachable L r)
    (hd : r.defined = true) :
    ∃ c, HMACContext.mk_init r.digest_ r.key_ = .returns c () ∧
      HMACContext.mk_copy r = .returns c () ∧
      (∀ t : HMACContext, t.assign r false = .returns c ()) ∧
      (∀ (ops : List TagOp) (r1 : HMACContext), run_ops L r ops = some r1 →
        HMACContext.mk_copy r1 = .returns c () ∧
        ∀ t : HMACContext, t.assign r1 false = .returns c ()) ∧
      c.defined = true ∧ c.digest_ = r.digest_ ∧ c.key_ = r.key_ ∧
      (∀ out inb : List Byte, (c.hmac L out inb).observe = (r.hmac L out inb).observe) ∧
      (∀ (off : Int) (out_size : Nat) (inb : List Byte),
        (c.hmac2_gen L off out_size inb).observe
          = (r.hmac2_gen L off out_size inb).observe ∧
        (c.hmac2_cmp L off out_size inb).result
          = (r.hmac2_cmp L off out_size inb).result) ∧
      r.assign r true = .returns r () := by
  obtain ⟨md, hk⟩ := reachable_keyed hr hd
  have hinit : ∀ t : HMACContext, t.init r.digest_ r.key_ = .returns
      { digest_ := r.digest_
        key_ := r.key_
        ctx := { ctx := { md := some md, key := r.key_.take md.size, data := [] }
                 initialized := true } } () :=
    fun t => init_of_long_key t r.digest_ r.key_ md hk.1 hk.2.2.2.2
  have hkc : Keyed
      { digest_ := r.digest_
        key_ := r.key_
        ctx := { ctx := { md := some md, key := r.key_.take md.size, data := [] }
                 initialized := true } } md :=
    ⟨hk.1, rfl, rfl, rfl, hk.2.2.2.2⟩
  have hke := KeyEq.of_same_key hkc hk rfl
  refine ⟨_, hinit HMACContext.mk_default, hinit HMACContext.mk_default, ?_, ?_, rfl, rfl,
    rfl, hmac_observe_keyeq L hke, ?_, rfl⟩
  · intro t
    exact hinit t
  · intro ops r1 hrun
    have hs := run_ops_frame hrun
    constructor
    · unfold HMACContext.mk_copy
      rw [hs.1, hs.2.1]
      exact hinit HMACContext.mk_default
    · intro t
      unfold HMACContext.assign
      rw [hs.1, hs.2.1]
      exact hinit t
  · intro off out_size inb
    exact ⟨hmac2_gen_observe_keyeq L hke off out_size inb,
      hmac2_cmp_result_keyeq L hke off out_size inb⟩

/-- The context `ctx32` after `history3` as the source: its copy is the
freshly initialised `ctx32`. -/
theorem C14_copy_semantics_witness :
    Reachable sumCrypto ctx32_after ∧ ctx32_after.defined = true ∧
    ctx32_after ≠ ctx32 ∧ HMACContext.mk_copy ctx32_after = .returns ctx32 () ∧
    ∃ c, HMACContext.mk_init ctx32_after.digest_ ctx32_after.key_ = .returns c () ∧
      HMACContext.mk_copy ctx32_after = .returns c () ∧
      (∀ t : HMACContext, t.assign ctx32_after false = .returns c ()) ∧
      (∀ (ops : List TagOp) (r1 : HMACContext), run_ops sumCrypto ctx32_after ops = some r1 →
        HMACContext.mk_copy r1 = .returns c () ∧
        ∀ t : HMACContext, t.assign r1 false = .returns c ()) ∧
      c.defined = true ∧ c.digest_ = ctx32_after.digest_ ∧ c.key_ = ctx32_after.key_ ∧
      (∀ out inb : List Byte,
        (c.hmac sumCrypto out inb).observe = (ctx32_after.hmac sumCrypto out inb).observe) ∧
      (∀ (off : Int) (out_size : Nat) (inb : List Byte),
        (c.hmac2_gen sumCrypto off out_size inb).observe
          = (ctx32_after.hmac2_gen sumCrypto off out_size inb).observe ∧
        (c.hmac2_cmp sumCrypto off out_size inb).result
          = (ctx32_after.hmac2_cmp sumCrypto off out_size inb).result) ∧
      ctx32_after.assign ctx32_after true = .returns ctx32_after () :=
  ⟨reachable_ctx32_after, rfl, by decide, by decide,
    C14_copy_semantics sumCrypto ctx32_after reachable_ctx32_after rfl⟩

/-! ## C15: changes outside the slot -/

theorem pre_4g_cons : pre_4g = 0 :: List.replicate 4294967295 0 :=
  List.replicate_succ (0 : Byte) 4294967295

theorem pre_4g_flipped_length : pre_4g_flipped.length = 4294967296 := by
  unfold pre_4g_flipped
  rw [List.length_cons, List.length_replicate]

theorem int_cast_pre_4g_flipped :
    int_cast (HMACContext.pre_size pre_4g_flipped.length) = 0 := by
  rw [pre_4g_flipped_length]
  exact int_cast_4g

theorem buf_4g_flipped_length (slot : List Byte) (hs : slot.length = 32) :
    (pre_4g_flipped ++ slot ++ post6).length < 2 ^ 64 := by
  have h6 : post6.length = 6 := rfl
  rw [List.length_append, List.length_append, pre_4g_flipped_length, hs, h6]
  omega

/-- C15 (amended): for every Ready context and every buffer
`pre ++ slot ++ post` of fewer than 2^31 bytes with `|slot| = output_size()`,
after `hmac2_gen`, replacing bytes of `pre` or `post` (a single byte or more)
makes the following `hmac2_cmp` return, and it returns false exactly when the
HMAC of the changed bytes differs from the tag in the slot, that is, unless the
two tags collide. -/
theorem C15_tamper_detected (L : Crypto) (c : HMACContext)
    (pre slot post pre2 post2 : List Byte) (hr : Reachable L c) (hd : c.defined = true)
    (hsz : c.output_size = .returns c slot.length)
    (hlen : (pre ++ slot ++ post).length < 2 ^ 31) (hp : pre2.length = pre.length)
    (hq : post2.length = post.length) :
    ∃ c1, c.hmac2_gen L pre.length slot.length (pre ++ slot ++ post)
        = .returns (c1, pre ++ tag_of L c (pre ++ post) ++ post) () ∧
      ∃ c2 b, c1.hmac2_cmp L pre.length slot.length
          (pre2 ++ tag_of L c (pre ++ post) ++ post2) = .returns c2 b ∧
        (b = false ↔ tag_of L c (pre2 ++ post2) ≠ tag_of L c (pre ++ post)) := by
  obtain ⟨md, hk⟩ := reachable_keyed hr hd
  have hmd : slot.length = md.size := output_size_eq hk hsz
  have hT : (tag_of L c (pre ++ post)).length = md.size := tag_of_length L hk _
  have hlen2 : (pre2 ++ tag_of L c (pre ++ post) ++ post2).length < 2 ^ 31 := by
    simp only [List.length_append] at hlen ⊢
    omega
  have hc := hmac2_cmp_split L (with_data_keyed hk (pre ++ post)) pre2
    (tag_of L c (pre ++ post)) post2 hT hlen2
  rw [tag_of_with_data, hT, ← hmd, hp] at hc
  refine ⟨_, hmac2_gen_split L hk pre slot post hmd hlen, _, _, hc, ?_⟩
  simp only [decide_eq_false_iff_not, ne_eq]
  exact ⟨fun h e => h e.symm, fun h e => h e.symm⟩

/-- The 48 byte buffer with the slot at offset 10 and a 32 byte tag, byte 0
changed from 1 to 2. -/
theorem C15_tamper_detected_witness :
    Reachable sumCrypto ctx32 ∧ ctx32.defined = true ∧
    ctx32.output_size = .returns ctx32 slot0.length ∧
    (pre10 ++ slot0 ++ post6).length < 2 ^ 31 ∧
    (pre10.set 0 2).length = pre10.length ∧ post6.length = post6.length ∧
    ∃ c1, ctx32.hmac2_gen sumCrypto pre10.length slot0.length (pre10 ++ slot0 ++ post6)
        = .returns (c1, pre10 ++ tag_of sumCrypto ctx32 (pre10 ++ post6) ++ post6) () ∧
      ∃ c2 b, c1.hmac2_cmp sumCrypto pre10.length slot0.length
          (pre10.set 0 2 ++ tag_of sumCrypto ctx32 (pre10 ++ post6) ++ post6)
            = .returns c2 b ∧
        (b = false ↔ tag_of sumCrypto ctx32 (pre10.set 0 2 ++ post6)
          ≠ tag_of sumCrypto ctx32 (pre10 ++ post6)) ∧
        b = false :=
  ⟨reachable_ctx32, rfl, rfl, by decide, by decide, rfl, by
    obtain ⟨c1, hg, c2, b, hc, hb⟩ :=
      C15_tamper_detected sumCrypto ctx32 pre10 slot0 post6 (pre10.set 0 2) post6
        reachable_ctx32 rfl rfl (by decide) (by decide) rfl
    exact ⟨c1, hg, c2, b, hc, hb, hb.mpr (by decide)⟩⟩

/-- C15 as stated fails in two ways. With a library HMAC that collides (the
checksum gives the same tag when byte 0 goes from 1 to 252), `hmac2_cmp`
returns true on the changed 48 byte buffer. With 2^32 bytes before the slot,
`int(pre_size)` is 0, those bytes are not hashed, and `hmac2_cmp` returns true
after byte 0 has gone from 0 to 1, whatever the HMAC. -/
theorem C15_counterexample :
    (Reachable sumCrypto ctx32 ∧ ctx32.defined = true ∧
      ctx32.output_size = .returns ctx32 32) ∧
    (pre10_flipped = pre10.set 0 252 ∧ pre10.get? 0 = some 1 ∧
      ctx32.hmac2_gen sumCrypto 10 32 (pre10 ++ slot0 ++ post6)
        = .returns (ctx32_after,
            pre10 ++ tag_of sumCrypto ctx32 (pre10 ++ post6) ++ post6) () ∧
      ctx32_after.hmac2_cmp sumCrypto 10 32
          (pre10_flipped ++ tag_of sumCrypto ctx32 (pre10 ++ post6) ++ post6)
        = .returns (with_data ctx32 (pre10_flipped ++ post6)) true) ∧
    (pre_4g = 0 :: List.replicate 4294967295 0 ∧
      pre_4g_flipped = 1 :: List.replicate 4294967295 0 ∧
      pre_4g.length = 4294967296 ∧ pre_4g_flipped.length = 4294967296 ∧
      ctx32.hmac2_gen sumCrypto pre_4g.length slot0.length (pre_4g ++ slot0 ++ post6)
        = .returns (with_data ctx32 post6, pre_4g ++ tag6 ++ post6) () ∧
      (with_data ctx32 post6).hmac2_cmp sumCrypto pre_4g_flipped.length tag6.length
          (pre_4g_flipped ++ tag6 ++ post6)
        = .returns (with_data (with_data ctx32 post6) post6) true) := by
  have hc := hmac2_cmp_wrapped sumCrypto (with_data_keyed keyed_ctx32 post6) pre_4g_flipped
    tag6 post6 tag6_length int_cast_pre_4g_flipped (by decide)
    (buf_4g_flipped_length tag6 tag6_length)
  have ht : decide (tag6 = tag_of sumCrypto (with_data ctx32 post6) post6) = true :=
    decide_eq_true rfl
  rw [ht] at hc
  exact ⟨⟨reachable_ctx32, rfl, rfl⟩, ⟨by decide, by decide, by decide, by decide⟩,
    ⟨pre_4g_cons, rfl, pre_4g_length, pre_4g_flipped_length,
      hmac2_gen_wrapped sumCrypto keyed_ctx32 pre_4g slot0 post6 rfl int_cast_pre_4g
        (by decide) (buf_4g_length slot0 rfl), hc⟩⟩

/-! ## C20: the order of the checks in `hmac2_gen` and `hmac2_cmp` -/

theorem hmac2_gen_of_pre_throws (L : Crypto) {c s : HMACContext} {off : Int}
    {out_size : Nat} {inb : List Byte} {e : Exn}
    (h : c.hmac2_pre off out_size inb = .throws s e) :
    c.hmac2_gen L off out_size inb = .throws (s, inb) e := by
  unfold HMACContext.hmac2_gen
  rw [h]

theorem hmac2_cmp_of_pre_throws (L : Crypto) {c s : HMACContext} {off : Int}
    {out_size : Nat} {inb : List Byte} {e : Exn}
    (h : c.hmac2_pre off out_size inb = .throws s e) :
    c.hmac2_cmp L off out_size inb = .throws s e := by
  unfold HMACContext.hmac2_cmp
  rw [h]

theorem output_size_ne {c : HMACContext} {md : EVP_MD} (hk : Keyed c md) {n : Nat}
    (h : c.output_size ≠ .returns c n) : n ≠ md.size := by
  intro he
  apply h
  rw [keyed_output_size hk, he]

/-- C20 (amended): with `in_size`, `out_size` and `|out - in|` below 2^62 the
checks of `hmac2_gen` and `hmac2_cmp` apply in the order range, initialisation,
slot size. A slot not wholly inside the buffer gives `digest_output_buffer`
whatever the context state; otherwise an Uninitialized context gives
`hmac_uninitialized` whatever `out_size` is; otherwise
`out_size != output_size()` gives `digest_output_buffer`; every failure leaves
context and buffer unchanged; and for a buffer of fewer than 2^31 bytes the
operation returns exactly when none of the three conditions holds. -/
theorem C20_error_precedence (L : Crypto) (c : HMACContext) (off : Int) (out_size : Nat)
    (inb : List Byte) (hr : Reachable L c) (hin : inb.length < 2 ^ 62)
    (hout : out_size < 2 ^ 62) (hoff : |off| < 2 ^ 62) :
    (¬ (0 ≤ off ∧ off + out_size ≤ inb.length) →
      c.hmac2_gen L off out_size inb = .throws (c, inb) .digest_output_buffer ∧
      c.hmac2_cmp L off out_size inb = .throws c .digest_output_buffer) ∧
    ((0 ≤ off ∧ off + out_size ≤ inb.length) → c.defined = false →
      c.hmac2_gen L off out_size inb = .throws (c, inb) .hmac_uninitialized ∧
      c.hmac2_cmp L off out_size inb = .throws c .hmac_uninitialized) ∧
    ((0 ≤ off ∧ off + out_size ≤ inb.length) → c.defined = true →
      c.output_size ≠ .returns c out_size →
      c.hmac2_gen L off out_size inb = .throws (c, inb) .digest_output_buffer ∧
      c.hmac2_cmp L off out_size inb = .throws c .digest_output_buffer) ∧
    (inb.length < 2 ^ 31 →
      ((∃ c1 in1, c.hmac2_gen L off out_size inb = .returns (c1, in1) ()) ↔
        ((0 ≤ off ∧ off + out_size ≤ inb.length) ∧ c.defined = true ∧
          c.output_size = .returns c out_size)) ∧
      ((∃ c1 b, c.hmac2_cmp L off out_size inb = .returns c1 b) ↔
        ((0 ≤ off ∧ off + out_size ≤ inb.length) ∧ c.defined = true ∧
          c.output_size = .returns c out_size))) := by
  obtain ⟨ho1, ho2⟩ := abs_lt.mp hoff
  have hx := range_check_exact off out_size inb.length hin hout ho1 ho2
  have hA : ¬ (0 ≤ off ∧ off + out_size ≤ inb.length) →
      c.hmac2_gen L off out_size inb = .throws (c, inb) .digest_output_buffer ∧
      c.hmac2_cmp L off out_size inb = .throws c .digest_output_buffer := by
    intro hout
    have hrej : HMACContext.range_rejects off out_size inb.length = true := by
      cases hb : HMACContext.range_rejects off out_size inb.length with
      | true => rfl
      | false => exact absurd (hx.mp hb) hout
    have hp := hmac2_pre_rejects c off out_size inb hrej
    exact ⟨hmac2_gen_of_pre_throws L hp, hmac2_cmp_of_pre_throws L hp⟩
  have hB : (0 ≤ off ∧ off + out_size ≤ inb.length) → c.defined = false →
      c.hmac2_gen L off out_size inb = .throws (c, inb) .hmac_uninitialized ∧
      c.hmac2_cmp L off out_size inb = .throws c .hmac_uninitialized := by
    intro hi hd
    have hp := hmac2_pre_uninitialized hd off out_size inb (hx.mpr hi)
    exact ⟨hmac2_gen_of_pre_throws L hp, hmac2_cmp_of_pre_throws L hp⟩
  have hC : (0 ≤ off ∧ off + out_size ≤ inb.length) → c.defined = true →
      c.output_size ≠ .returns c out_size →
      c.hmac2_gen L off out_size inb = .throws (c, inb) .digest_output_buffer ∧
      c.hmac2_cmp L off out_size inb = .throws c .digest_output_buffer := by
    intro hi hd hne
    obtain ⟨md, hk⟩ := reachable_keyed hr hd
    have hp := hmac2_pre_size_mismatch hk off out_size inb (hx.mpr hi) (output_size_ne hk hne)
    exact ⟨hmac2_gen_of_pre_throws L hp, hmac2_cmp_of_pre_throws L hp⟩
  have hcond : ∀ P : Prop, (¬ (0 ≤ off ∧ off + out_size ≤ inb.length) → ¬ P) →
      ((0 ≤ off ∧ off + out_size ≤ inb.length) → c.defined = false → ¬ P) →
      ((0 ≤ off ∧ off + out_size ≤ inb.length) → c.defined = true →
        c.output_size ≠ .returns c out_size → ¬ P) →
      P → ((0 ≤ off ∧ off + out_size ≤ inb.length) ∧ c.defined = true ∧
          c.output_size = .returns c out_size) := by
    intro P h1 h2 h3 hP
    by_cases hi : 0 ≤ off ∧ off + out_size ≤ inb.length
    · cases hd : c.defined with
      | false => exact absurd hP (h2 hi hd)
      | true =>
        by_cases ho : c.output_size = .returns c out_size
        · exact ⟨hi, rfl, ho⟩
        · exact absurd hP (h3 hi hd ho)
    · exact absurd hP (h1 hi)
  refine ⟨hA, hB, hC, ?_⟩
  intro hlen
  constructor
  · constructor
    · apply hcond
      · intro hi ⟨c1, in1, h⟩
        rw [(hA hi).1] at h; cases h
      · intro hi hd ⟨c1, in1, h⟩
        rw [(hB hi hd).1] at h; cases h
      · intro hi hd ho ⟨c1, in1, h⟩
        rw [(hC hi hd ho).1] at h; cases h
    · rintro ⟨⟨h0, h1⟩, hd, hsz⟩
      obtain ⟨md, hk⟩ := reachable_keyed hr hd
      have hmd : out_size = md.size := output_size_eq hk hsz
      obtain ⟨pre, slot, post, hb, hof, hs⟩ := split_buffer inb off out_size h0 h1
      subst hb; subst hof; subst hs
      exact ⟨_, _, hmac2_gen_split L hk pre slot post hmd hlen⟩
  · constructor
    · apply hcond
      · intro hi ⟨c1, b, h⟩
        rw [(hA hi).2] at h; cases h
      · intro hi hd ⟨c1, b, h⟩
        rw [(hB hi hd).2] at h; cases h
      · intro hi hd ho ⟨c1, b, h⟩
        rw [(hC hi hd ho).2] at h; cases h
    · rintro ⟨⟨h0, h1⟩, hd, hsz⟩
      obtain ⟨md, hk⟩ := reachable_keyed hr hd
      have hmd : out_size = md.size := output_size_eq hk hsz
      obtain ⟨pre, slot, post, hb, hof, hs⟩ := split_buffer inb off out_size h0 h1
      subst hb; subst hof; subst hs
      exact ⟨_, _, hmac2_cmp_split L hk pre slot post hmd hlen⟩

/-- The Ready context `ctx32` on the 48 byte buffer: a 32 byte slot at offset
40 is outside, a 16 byte slot at offset 10 has the wrong size, a 32 byte slot
at offset 10 is accepted. -/
theorem C20_error_precedence_witness :
    Reachable sumCrypto ctx32 ∧ buf48.length < 2 ^ 62 ∧ (32 : Nat) < 2 ^ 62 ∧
    |(40 : Int)| < 2 ^ 62 ∧ ¬ ((0 : Int) ≤ 40 ∧ (40 : Int) + (32 : Nat) ≤ buf48.length) ∧
    ctx32.hmac2_gen sumCrypto 40 32 buf48 = .throws (ctx32, buf48) .digest_output_buffer ∧
    ctx32.hmac2_cmp sumCrypto 40 32 buf48 = .throws ctx32 .digest_output_buffer ∧
    ctx32.hmac2_gen sumCrypto 10 16 buf48 = .throws (ctx32, buf48) .digest_output_buffer ∧
    (∃ c1 in1, ctx32.hmac2_gen sumCrypto 10 32 buf48 = .returns (c1, in1) ()) ∧
    (∃ c1 b, ctx32.hmac2_cmp sumCrypto 10 32 buf48 = .returns c1 b) := by
  have h40 := C20_error_precedence sumCrypto ctx32 40 32 buf48 reachable_ctx32 (by decide)
    (by norm_num) (by norm_num)
  have h16 := C20_error_precedence sumCrypto ctx32 10 16 buf48 reachable_ctx32 (by decide)
    (by norm_num) (by norm_num)
  have h32 := C20_error_precedence sumCrypto ctx32 10 32 buf48 reachable_ctx32 (by decide)
    (by norm_num) (by norm_num)
  have hout : ¬ ((0 : Int) ≤ 40 ∧ (40 : Int) + (32 : Nat) ≤ buf48.length) := by decide
  exact ⟨reachable_ctx32, by decide, by norm_num, by norm_num, hout, (h40.1 hout).1,
    (h40.1 hout).2, (h16.2.2.1 (by decide) rfl (by decide)).1,
    (h32.2.2.2 (by decide)).1.mpr ⟨by decide, rfl, rfl⟩,
    (h32.2.2.2 (by decide)).2.mpr ⟨by decide, rfl, rfl⟩⟩

/-- C20 as stated fails in two ways. On the default-constructed context a slot
of `size_max` bytes at offset 5 of a 10 byte buffer is outside the buffer, yet
`post_size` wraps around to 6, the range check passes and the error is
`hmac_uninitialized`. On the Ready context `ctx32` with a 32 byte slot at
offset 2^31 of `buf_2g` none of the three conditions holds, yet
`int(pre_size)` is negative and `hmac2_gen` has no defined result. -/
theorem C20_counterexample :
    (HMACContext.mk_default.defined = false ∧
      ¬ ((0 : Int) ≤ 5 ∧ (5 : Int) + size_max ≤ pre10.length) ∧
      HMACContext.post_size 5 size_max pre10.length = 6 ∧
      HMACContext.mk_default.hmac2_gen sumCrypto 5 size_max pre10
        = .throws (HMACContext.mk_default, pre10) .hmac_uninitialized ∧
      HMACContext.mk_default.hmac2_cmp sumCrypto 5 size_max pre10
        = .throws HMACContext.mk_default .hmac_uninitialized) ∧
    (Reachable sumCrypto ctx32 ∧ ctx32.defined = true ∧
      ctx32.output_size = .returns ctx32 32 ∧
      ((0 : Int) ≤ 2147483648 ∧ (2147483648 : Int) + (32 : Nat) ≤ buf_2g.length) ∧
      ctx32.hmac2_gen sumCrypto 2147483648 32 buf_2g = .undefined) := by
  have hr : HMACContext.range_rejects 2147483648 32 buf_2g.length = false := by
    rw [buf_2g_length]
    exact range_accepts_of_inside 2147483648 32 2147483680 (by omega) (by omega)
  have hc : int_cast (HMACContext.pre_size 2147483648) < 0 := by
    unfold HMACContext.pre_size size_t_wrap int_cast
    split <;> omega
  have hl : (2147483648 : Int) + (32 : Nat) ≤ buf_2g.length := by
    rw [buf_2g_length]; omega
  exact ⟨⟨rfl, by decide, by decide, by decide, by decide⟩,
    ⟨reachable_ctx32, rfl, rfl, ⟨by omega, hl⟩,
      hmac2_gen_undefined_of_negative sumCrypto keyed_ctx32 2147483648 32 buf_2g hr rfl hc⟩⟩

end openvpn
